import Mathlib

/-!
Verification development for the quorum-formation / threshold-signing core
(LLMQ signing manager, recovered-signature store, DKG session manager, and
the bounded write-back cache `CEvoDB`).

The C++ sources are shallowly embedded: `std::unordered_map` and
`std::unordered_set` become association lists / key lists, the on-disk
key-value store becomes an association list keyed by the composite keys the
code uses, `uint256` values become `Nat`, and hashes produced by injective
serialization are modelled by the serialized content itself.  Fallible store
operations return `Option`; the success of a batch write is an explicit
boolean parameter.
-/

namespace OwleeModel

/-- Association-list lookup; models lookup in `std::unordered_map`.
Returns the value of the first matching key. -/
def alookup {K V : Type} [DecidableEq K] : List (K × V) → K → Option V
| [], _ => none
| (k, v) :: t, x => if k = x then some v else alookup t x

/-- Association-list erase; models `std::unordered_map::erase(key)`.
Removes every entry with the given key (the code keeps keys unique). -/
def aremove {K V : Type} [DecidableEq K] : List (K × V) → K → List (K × V)
| [], _ => []
| (k, v) :: t, x => if k = x then aremove t x else (k, v) :: aremove t x

/-- Association-list upsert; models `map[k] = v` / a keyed batch write. -/
def aput {K V : Type} [DecidableEq K] (l : List (K × V)) (k : K) (v : V) : List (K × V) :=
  aremove l k ++ [(k, v)]

/-- Key-set erase; models `std::unordered_set::erase`. -/
def sremove {K : Type} [DecidableEq K] : List K → K → List K
| [], _ => []
| k :: t, x => if k = x then sremove t x else k :: sremove t x

/-- Key-set insert; models `std::unordered_set::insert`. -/
def sinsert {K : Type} [DecidableEq K] (l : List K) (k : K) : List K :=
  if k ∈ l then l else l ++ [k]

theorem alookup_aput_self {K V : Type} [DecidableEq K] (l : List (K × V)) (k : K) (v : V) :
    alookup (aput l k v) k = some v := by
  induction l with
  | nil => simp [aput, aremove, alookup]
  | cons p t ih =>
    obtain ⟨k0, v0⟩ := p
    by_cases h : k0 = k
    · simpa [aput, aremove, h] using ih
    · simpa [aput, aremove, alookup, h] using ih

theorem alookup_append {K V : Type} [DecidableEq K] (a b : List (K × V)) (k : K) :
    alookup (a ++ b) k = match alookup a k with
      | some v => some v
      | none => alookup b k := by
  induction a with
  | nil => simp [alookup]
  | cons p t ih =>
    obtain ⟨k0, v0⟩ := p
    by_cases h : k0 = k <;> simp [alookup, h, ih]

theorem alookup_aremove_self {K V : Type} [DecidableEq K] (l : List (K × V)) (k : K) :
    alookup (aremove l k) k = none := by
  induction l with
  | nil => rfl
  | cons p t ih =>
    obtain ⟨k0, v0⟩ := p
    by_cases h : k0 = k <;> simp [aremove, alookup, h, ih]

theorem alookup_aremove_ne {K V : Type} [DecidableEq K] (l : List (K × V)) (k x : K)
    (h : x ≠ k) : alookup (aremove l k) x = alookup l x := by
  induction l with
  | nil => rfl
  | cons p t ih =>
    obtain ⟨k0, v0⟩ := p
    by_cases h0 : k0 = k
    · subst h0
      simp [aremove, alookup, Ne.symm h, ih]
    · by_cases h1 : k0 = x <;> simp [aremove, alookup, h0, h1, h, ih]

theorem alookup_aput_ne {K V : Type} [DecidableEq K] (l : List (K × V)) (k x : K) (v : V)
    (h : x ≠ k) : alookup (aput l k v) x = alookup l x := by
  rw [aput, alookup_append]
  rw [alookup_aremove_ne l k x h]
  cases hx : alookup l x <;> simp [alookup, Ne.symm h]

end OwleeModel

namespace OwleeModel

/-!
## Bounded write-back cache (`src/evo/evodb.h`, template class `CEvoDB<K, V>`)

`mapCache` (an `unordered_map` from keys to list iterators) and `fifoList`
(the list those iterators point into) are both modelled as association
lists; the code keeps them in lock-step, which is exactly the invariant of
claim C10.  The backing `CDBWrapper` store is an association list as well,
and the result of `WriteBatch` is the explicit `ok` parameter.
-/

structure EvoDB (K V : Type) where
  mapCache : List (K × V)
  fifoList : List (K × V)
  setEraseCache : List K
  maxCacheSize : Nat
  bFlushOnNextRead : Bool
  store : List (K × V)
deriving DecidableEq

/-- `CEvoDB::IsCacheFull`: `maxCacheSize > 0 && (mapCache.size()+setEraseCache.size()) >= maxCacheSize`. -/
def IsCacheFull {K V : Type} (db : EvoDB K V) : Bool :=
  decide (0 < db.maxCacheSize) &&
    decide (db.maxCacheSize ≤ db.mapCache.length + db.setEraseCache.length)

/-- `CEvoDB::WriteCache`: erase any existing entry for the key from the map
and the FIFO list, append the new entry at the back, drop the key from the
pending-erase set, then evict the FIFO front if `mapCache.size() > maxCacheSize`. -/
def WriteCache {K V : Type} [DecidableEq K] (db : EvoDB K V) (key : K) (value : V) :
    EvoDB K V :=
  let mapCache1 := aremove db.mapCache key
  let fifoList1 := aremove db.fifoList key
  let fifoList2 := fifoList1 ++ [(key, value)]
  let mapCache2 := mapCache1 ++ [(key, value)]
  let setErase1 := sremove db.setEraseCache key
  if 0 < db.maxCacheSize ∧ db.maxCacheSize < mapCache2.length then
    match fifoList2 with
    | [] => { db with mapCache := mapCache2, fifoList := [], setEraseCache := setErase1 }
    | oldest :: rest =>
        { db with mapCache := aremove mapCache2 oldest.1, fifoList := rest,
                  setEraseCache := setErase1 }
  else
    { db with mapCache := mapCache2, fifoList := fifoList2, setEraseCache := setErase1 }

/-- `CEvoDB::EraseCache`: arm the flush-before-next-read flag, drop any
pending write for the key, record the pending erase. -/
def EraseCache {K V : Type} [DecidableEq K] (db : EvoDB K V) (key : K) : EvoDB K V :=
  { db with bFlushOnNextRead := true,
            mapCache := aremove db.mapCache key,
            fifoList := aremove db.fifoList key,
            setEraseCache := sinsert db.setEraseCache key }

/-- The net effect of the flush batch on the backing store: all pending
writes are written, then all pending erases applied (`CDBBatch` applies its
operations in the order they were added: the `batch.Write` loop precedes the
`batch.Erase` loop). -/
def applyFlushBatch {K V : Type} [DecidableEq K] (db : EvoDB K V) : List (K × V) :=
  let afterWrites := db.mapCache.foldl (fun st kv => aput st kv.1 kv.2) db.store
  db.setEraseCache.foldl (fun st k => aremove st k) afterWrites

/-- `CEvoDB::FlushCacheToDisk`: early-return `true` when nothing is pending;
otherwise attempt the batch write (`ok` models the `WriteBatch` result) and
clear the three in-memory structures only on success. -/
def FlushCacheToDisk {K V : Type} [DecidableEq K] (ok : Bool) (db : EvoDB K V) :
    Bool × EvoDB K V :=
  if db.mapCache.isEmpty && db.setEraseCache.isEmpty then (true, db)
  else if ok then
    (true, { db with store := applyFlushBatch db, mapCache := [], fifoList := [],
                     setEraseCache := [] })
  else (false, db)

/-- `CEvoDB::ReadCache`: flush first when `bFlushOnNextRead` is armed
(ignoring the flush result), then consult the pending-write map and fall
back to the backing store.  The pending-erase set is never consulted. -/
def ReadCache {K V : Type} [DecidableEq K] (ok : Bool) (db : EvoDB K V) (key : K) :
    Option V × EvoDB K V :=
  let db1 := if db.bFlushOnNextRead
    then (FlushCacheToDisk ok { db with bFlushOnNextRead := false }).2
    else db
  match alookup db1.mapCache key with
  | some v => (some v, db1)
  | none => (alookup db1.store key, db1)

/-- States of the cache reachable from an empty pending state by the three
mutating operations of the contract. -/
inductive EvoReach {K V : Type} [DecidableEq K] : EvoDB K V → Prop
  | init (store : List (K × V)) (maxSize : Nat) :
      EvoReach ⟨[], [], [], maxSize, false, store⟩
  | write {db : EvoDB K V} (key : K) (value : V) :
      EvoReach db → EvoReach (WriteCache db key value)
  | erase {db : EvoDB K V} (key : K) :
      EvoReach db → EvoReach (EraseCache db key)
  | flush {db : EvoDB K V} (ok : Bool) :
      EvoReach db → EvoReach (FlushCacheToDisk ok db).2

end OwleeModel


namespace OwleeModel

theorem aremove_cons_self {K V : Type} [DecidableEq K] (t : List (K × V)) (k : K) (v : V) :
    aremove ((k, v) :: t) k = aremove t k := by
  simp [aremove]

theorem aremove_cons_ne {K V : Type} [DecidableEq K] (t : List (K × V)) (k0 k : K) (v : V)
    (h : k0 ≠ k) : aremove ((k0, v) :: t) k = (k0, v) :: aremove t k := by
  simp [aremove, h]

theorem sremove_cons_self {K : Type} [DecidableEq K] (t : List K) (k : K) :
    sremove (k :: t) k = sremove t k := by
  simp [sremove]

theorem sremove_cons_ne {K : Type} [DecidableEq K] (t : List K) (k0 k : K)
    (h : k0 ≠ k) : sremove (k0 :: t) k = k0 :: sremove t k := by
  simp [sremove, h]

theorem alookup_eq_none {K V : Type} [DecidableEq K] (l : List (K × V)) (k : K)
    (h : k ∉ l.map Prod.fst) : alookup l k = none := by
  induction l with
  | nil => rfl
  | cons p t ih =>
    obtain ⟨k0, v0⟩ := p
    simp only [List.map_cons, List.mem_cons] at h
    push_neg at h
    simp [alookup, Ne.symm h.1, ih h.2]

theorem alookup_foldl_aput {K V : Type} [DecidableEq K] (l st : List (K × V)) (k : K)
    (hnd : (l.map Prod.fst).Nodup) :
    alookup (l.foldl (fun st kv => aput st kv.1 kv.2) st) k =
      match alookup l k with
      | some v => some v
      | none => alookup st k := by
  induction l generalizing st with
  | nil => simp [alookup]
  | cons p t ih =>
    obtain ⟨k0, v0⟩ := p
    simp only [List.map_cons, List.nodup_cons] at hnd
    rw [List.foldl_cons, ih (aput st k0 v0) hnd.2]
    by_cases h : k0 = k
    · subst h
      rw [alookup_eq_none t k0 hnd.1]
      simp [alookup, alookup_aput_self]
    · cases ht : alookup t k <;> simp [alookup, h, ht, alookup_aput_ne st k0 k v0 (Ne.symm h)]

theorem alookup_foldl_aremove {K V : Type} [DecidableEq K] (l : List K)
    (st : List (K × V)) (k : K) :
    alookup (l.foldl (fun st x => aremove st x) st) k =
      if k ∈ l then none else alookup st k := by
  induction l generalizing st with
  | nil => simp
  | cons x t ih =>
    rw [List.foldl_cons, ih (aremove st x)]
    by_cases hm : k ∈ t
    · simp [hm]
    · by_cases hx : k = x
      · subst hx
        simp [hm, alookup_aremove_self]
      · simp [hm, hx, alookup_aremove_ne st x k hx]

theorem mem_keys_aremove {K V : Type} [DecidableEq K] (l : List (K × V)) (k x : K) :
    x ∈ (aremove l k).map Prod.fst ↔ (x ∈ l.map Prod.fst ∧ x ≠ k) := by
  induction l with
  | nil => simp [aremove]
  | cons p t ih =>
    obtain ⟨k0, v0⟩ := p
    by_cases hk : k0 = k
    · subst hk
      rw [aremove_cons_self, ih]
      simp only [List.map_cons, List.mem_cons]
      constructor
      · rintro ⟨hm, hne⟩
        exact ⟨Or.inr hm, hne⟩
      · rintro ⟨hm | hm, hne⟩
        · exact absurd hm hne
        · exact ⟨hm, hne⟩
    · rw [aremove_cons_ne t k0 k v0 hk]
      simp only [List.map_cons, List.mem_cons, ih]
      constructor
      · rintro (hx | ⟨hm, hne⟩)
        · subst hx
          exact ⟨Or.inl rfl, hk⟩
        · exact ⟨Or.inr hm, hne⟩
      · rintro ⟨hx | hm, hne⟩
        · exact Or.inl hx
        · exact Or.inr ⟨hm, hne⟩

theorem nodup_keys_aremove {K V : Type} [DecidableEq K] (l : List (K × V)) (k : K)
    (h : (l.map Prod.fst).Nodup) : ((aremove l k).map Prod.fst).Nodup := by
  induction l with
  | nil => simp [aremove]
  | cons p t ih =>
    obtain ⟨k0, v0⟩ := p
    simp only [List.map_cons, List.nodup_cons] at h
    by_cases hk : k0 = k
    · rw [hk, aremove_cons_self]
      exact ih h.2
    · rw [aremove_cons_ne t k0 k v0 hk]
      simp only [List.map_cons, List.nodup_cons]
      exact ⟨fun hm => h.1 ((mem_keys_aremove t k k0).1 hm).1, ih h.2⟩

theorem mem_sremove_iff {K : Type} [DecidableEq K] (l : List K) (k x : K) :
    x ∈ sremove l k ↔ (x ∈ l ∧ x ≠ k) := by
  induction l with
  | nil => simp [sremove]
  | cons k0 t ih =>
    by_cases hk : k0 = k
    · subst hk
      rw [sremove_cons_self, ih]
      simp only [List.mem_cons]
      constructor
      · rintro ⟨hm, hne⟩
        exact ⟨Or.inr hm, hne⟩
      · rintro ⟨hm | hm, hne⟩
        · exact absurd hm hne
        · exact ⟨hm, hne⟩
    · rw [sremove_cons_ne t k0 k hk]
      simp only [List.mem_cons, ih]
      constructor
      · rintro (hx | ⟨hm, hne⟩)
        · subst hx
          exact ⟨Or.inl rfl, hk⟩
        · exact ⟨Or.inr hm, hne⟩
      · rintro ⟨hx | hm, hne⟩
        · exact Or.inl hx
        · exact Or.inr ⟨hm, hne⟩

theorem mem_sinsert_iff {K : Type} [DecidableEq K] (l : List K) (k x : K) :
    x ∈ sinsert l k ↔ (x ∈ l ∨ x = k) := by
  unfold sinsert
  by_cases h : k ∈ l
  · simp only [if_pos h]
    constructor
    · exact Or.inl
    · rintro (hm | hm)
      · exact hm
      · subst hm; exact h
  · simp [if_neg h]

/-- The representation invariant of the bounded cache: the pending-write map
and the FIFO list agree, pending keys are unique, and no pending-write key
is also pending erase. -/
def EvoInv {K V : Type} [DecidableEq K] (db : EvoDB K V) : Prop :=
  db.fifoList = db.mapCache ∧ (db.mapCache.map Prod.fst).Nodup ∧
    ∀ k, k ∈ db.mapCache.map Prod.fst → k ∉ db.setEraseCache

theorem aremove_eq_of_not_mem {K V : Type} [DecidableEq K] (l : List (K × V)) (k : K)
    (h : k ∉ l.map Prod.fst) : aremove l k = l := by
  induction l with
  | nil => rfl
  | cons p t ih =>
    obtain ⟨k0, v0⟩ := p
    simp only [List.map_cons, List.mem_cons] at h
    push_neg at h
    rw [aremove_cons_ne t k0 k v0 (fun he => h.1 he.symm), ih h.2]

theorem evoInv_write {K V : Type} [DecidableEq K] (db : EvoDB K V) (key : K) (value : V)
    (h : EvoInv db) : EvoInv (WriteCache db key value) := by
  obtain ⟨hfm, hnd, hdis⟩ := h
  have hnd2 : ((aremove db.mapCache key ++ [(key, value)]).map Prod.fst).Nodup := by
    simp only [List.map_append, List.map_cons, List.map_nil, List.nodup_append,
      List.nodup_cons, List.nodup_nil, List.disjoint_singleton]
    refine ⟨nodup_keys_aremove _ _ hnd, by simp, ?_⟩
    intro hk
    exact ((mem_keys_aremove db.mapCache key key).1 hk).2 rfl
  have hdis2 : ∀ k, k ∈ (aremove db.mapCache key ++ [(key, value)]).map Prod.fst →
      k ∉ sremove db.setEraseCache key := by
    intro k hk hmem
    rcases (mem_sremove_iff db.setEraseCache key k).1 hmem with ⟨hin, hne⟩
    simp only [List.map_append, List.map_cons, List.map_nil, List.mem_append,
      List.mem_cons, List.not_mem_nil, or_false] at hk
    rcases hk with hk | hk
    · exact hdis k ((mem_keys_aremove db.mapCache key k).1 hk).1 hin
    · exact hne hk
  simp only [WriteCache, hfm]
  split
  · split
    · rename_i heq
      exact absurd heq (by simp)
    · rename_i oldest rest heq
      have hnd3 : ((oldest :: rest).map Prod.fst).Nodup := by rw [← heq]; exact hnd2
      simp only [List.map_cons, List.nodup_cons] at hnd3
      have hrest : aremove (aremove db.mapCache key ++ [(key, value)]) oldest.1 = rest := by
        rw [heq]
        obtain ⟨o1, o2⟩ := oldest
        rw [aremove_cons_self]
        exact aremove_eq_of_not_mem rest o1 hnd3.1
      exact ⟨hrest.symm ▸ rfl, hrest ▸ hnd3.2, fun k hk =>
        hdis2 k (by rw [heq]; exact List.mem_cons_of_mem _ (hrest ▸ hk))⟩
  · exact ⟨rfl, hnd2, hdis2⟩

theorem evoInv_erase {K V : Type} [DecidableEq K] (db : EvoDB K V) (key : K)
    (h : EvoInv db) : EvoInv (EraseCache db key) := by
  obtain ⟨hfm, hnd, hdis⟩ := h
  refine ⟨by simp [EraseCache, hfm], nodup_keys_aremove _ _ hnd, ?_⟩
  intro k hk hmem
  simp only [EraseCache] at hk hmem
  rcases (mem_keys_aremove db.mapCache key k).1 hk with ⟨hin, hne⟩
  rcases (mem_sinsert_iff db.setEraseCache key k).1 hmem with hm | hm
  · exact hdis k hin hm
  · exact hne hm

theorem evoInv_flush {K V : Type} [DecidableEq K] (ok : Bool) (db : EvoDB K V)
    (h : EvoInv db) : EvoInv (FlushCacheToDisk ok db).2 := by
  unfold FlushCacheToDisk
  split
  · exact h
  · split
    · exact ⟨rfl, by simp, by simp⟩
    · exact h

theorem evoReach_inv {K V : Type} [DecidableEq K] {db : EvoDB K V} (h : EvoReach db) :
    EvoInv db := by
  induction h with
  | init store maxSize => exact ⟨rfl, by simp, by simp⟩
  | write key value _ ih => exact evoInv_write _ key value ih
  | erase key _ ih => exact evoInv_erase _ key ih
  | flush ok _ ih => exact evoInv_flush ok _ ih

end OwleeModel

namespace OwleeModel

/-- Claim C10: after every sequence of `WriteCache`, `EraseCache` and
`FlushCacheToDisk` operations on the bounded write-back cache, no key is
simultaneously in the pending-write map and the pending-erase set, and the
FIFO list and the pending-write map hold exactly the same set of keys. -/
theorem evoCache_pending_disjoint {K V : Type} [DecidableEq K] (db : EvoDB K V)
    (h : EvoReach db) (k : K) :
    (k ∈ db.mapCache.map Prod.fst ↔ k ∈ db.fifoList.map Prod.fst) ∧
    ¬(k ∈ db.mapCache.map Prod.fst ∧ k ∈ db.setEraseCache) := by
  obtain ⟨hfm, _, hdis⟩ := evoReach_inv h
  exact ⟨by rw [hfm], fun hc => hdis k hc.1 hc.2⟩

/-- A concrete reachable cache state: erase key 3, then write it back. -/
def evoC10ex : EvoDB Nat Nat :=
  WriteCache (EraseCache ⟨[], [], [], 4, false, []⟩ 3) 3 9

/-- Claim C10, witness: the invariant evaluated on a concrete reachable state. -/
theorem evoCache_pending_disjoint_witness :
    (3 ∈ evoC10ex.mapCache.map Prod.fst ↔ 3 ∈ evoC10ex.fifoList.map Prod.fst) ∧
    ¬(3 ∈ evoC10ex.mapCache.map Prod.fst ∧ 3 ∈ evoC10ex.setEraseCache) :=
  evoCache_pending_disjoint evoC10ex
    (EvoReach.write 3 9 (EvoReach.erase 3 (EvoReach.init [] 4))) 3

/-- Claim C3: `FlushCacheToDisk` applies all pending writes and erases as one
batch; on failure it returns `false` leaving the pending-write map, FIFO list
and pending-erase set unchanged, and on success it returns `true` with all
three pending structures empty and the store updated per the batch. -/
theorem flushCacheToDisk_atomic {K V : Type} [DecidableEq K] (ok : Bool) (db : EvoDB K V)
    (hnd : (db.mapCache.map Prod.fst).Nodup) (hmf : db.fifoList = db.mapCache) :
    ((FlushCacheToDisk ok db).1 = false → (FlushCacheToDisk ok db).2 = db) ∧
    ((FlushCacheToDisk ok db).1 = true →
      (FlushCacheToDisk ok db).2.mapCache = [] ∧
      (FlushCacheToDisk ok db).2.fifoList = [] ∧
      (FlushCacheToDisk ok db).2.setEraseCache = [] ∧
      ∀ k, alookup (FlushCacheToDisk ok db).2.store k =
        if k ∈ db.setEraseCache then none
        else match alookup db.mapCache k with
          | some v => some v
          | none => alookup db.store k) := by
  unfold FlushCacheToDisk
  split
  · rename_i hemp
    rw [Bool.and_eq_true, List.isEmpty_iff, List.isEmpty_iff] at hemp
    refine ⟨fun hf => by simp at hf, fun _ => ⟨hemp.1, hmf.trans hemp.1, hemp.2, ?_⟩⟩
    intro k
    rw [hemp.1, hemp.2]
    simp [alookup]
  · split
    · refine ⟨fun hf => by simp at hf, fun _ => ⟨rfl, rfl, rfl, ?_⟩⟩
      intro k
      show alookup (applyFlushBatch db) k = _
      simp only [applyFlushBatch]
      rw [alookup_foldl_aremove, alookup_foldl_aput _ _ _ hnd]
    · exact ⟨fun _ => rfl, fun ht => by simp at ht⟩

/-- Concrete cache state for the C3 witness: one pending write, one pending
erase, a backing store holding the to-be-erased key. -/
def evoC3db : EvoDB Nat Nat := ⟨[(1, 10)], [(1, 10)], [2], 3, false, [(2, 5), (3, 8)]⟩

/-- Claim C3, witness: a successful flush empties the pending structures,
applies the write of key 1, erases key 2 and keeps the untouched key 3. -/
theorem flushCacheToDisk_atomic_witness :
    (FlushCacheToDisk true evoC3db).1 = true ∧
    (FlushCacheToDisk true evoC3db).2.mapCache = [] ∧
    (FlushCacheToDisk true evoC3db).2.setEraseCache = [] ∧
    alookup (FlushCacheToDisk true evoC3db).2.store 1 = some 10 ∧
    alookup (FlushCacheToDisk true evoC3db).2.store 2 = none ∧
    alookup (FlushCacheToDisk true evoC3db).2.store 3 = some 8 := by
  have h := (flushCacheToDisk_atomic true evoC3db (by decide) (by decide)).2 (by decide)
  refine ⟨by decide, h.1, h.2.2.1, ?_, ?_, ?_⟩
  · rw [h.2.2.2 1]
    decide
  · rw [h.2.2.2 2]
    decide
  · rw [h.2.2.2 3]
    decide

/-- Cache state reached by `EraseCache(0)`, `WriteCache(1,10)`, `WriteCache(2,20)`
with configured maximum size 2: two pending writes plus one pending erase. -/
def evoC4pre : EvoDB Nat Nat :=
  WriteCache (WriteCache (EraseCache ⟨[], [], [], 2, false, []⟩ 0) 1 10) 2 20

/-- Claim C4, counterexample: after the upsert the combined count of pending
writes and pending erases (3) exceeds the configured maximum (2) — the cache
even reports `IsCacheFull` — yet the oldest pending entry `(1, 10)` is NOT
evicted: `WriteCache` only evicts when the pending-write map alone exceeds
the maximum. -/
theorem writeCache_no_combined_eviction :
    evoC4pre.maxCacheSize = 2 ∧
    evoC4pre.maxCacheSize < evoC4pre.mapCache.length + evoC4pre.setEraseCache.length ∧
    IsCacheFull evoC4pre = true ∧
    evoC4pre.fifoList.head? = some (1, 10) ∧
    alookup evoC4pre.mapCache 1 = some 10 := by
  decide

/-- Claim C4 (amended): `WriteCache` never touches the backing store; it
evicts the oldest FIFO entry exactly when the pending-write map alone (not
the combined count with pending erases) exceeds the configured maximum after
the upsert, and the eviction only drops the in-memory entry. -/
theorem writeCache_eviction {K V : Type} [DecidableEq K] (db : EvoDB K V)
    (key : K) (value : V) :
    (WriteCache db key value).store = db.store ∧
    ((db.maxCacheSize = 0 ∨ (aremove db.mapCache key).length + 1 ≤ db.maxCacheSize) →
      (WriteCache db key value).fifoList = aremove db.fifoList key ++ [(key, value)] ∧
      (WriteCache db key value).mapCache = aremove db.mapCache key ++ [(key, value)]) ∧
    (0 < db.maxCacheSize → db.maxCacheSize < (aremove db.mapCache key).length + 1 →
      ∃ oldest rest, aremove db.fifoList key ++ [(key, value)] = oldest :: rest ∧
        (WriteCache db key value).fifoList = rest ∧
        alookup (WriteCache db key value).mapCache oldest.1 = none ∧
        (WriteCache db key value).store = db.store) := by
  simp only [WriteCache]
  have hlen : (aremove db.mapCache key ++ [(key, value)]).length
      = (aremove db.mapCache key).length + 1 := by simp
  split
  · rename_i hover
    rw [hlen] at hover
    split
    · rename_i heq
      exact absurd heq (by simp)
    · rename_i oldest rest heq
      refine ⟨rfl, ?_, ?_⟩
      · rintro (h0 | hle)
        · omega
        · omega
      · intro _ _
        exact ⟨oldest, rest, heq, rfl, alookup_aremove_self _ _, rfl⟩
  · rename_i hover
    rw [hlen] at hover
    push_neg at hover
    refine ⟨rfl, fun _ => ⟨rfl, rfl⟩, ?_⟩
    intro hpos hlt
    exact absurd (hover hpos) (by omega)

/-- Claim C4 (amended), witness: on the concrete over-combined-limit state,
writing key 2 performs no eviction (map alone is within the limit) and the
backing store is untouched. -/
theorem writeCache_eviction_witness :
    (WriteCache (WriteCache (EraseCache (⟨[], [], [], 2, false, []⟩ : EvoDB Nat Nat) 0) 1 10) 2 20).fifoList
      = [(1, 10), (2, 20)] ∧
    (WriteCache (WriteCache (EraseCache (⟨[], [], [], 2, false, []⟩ : EvoDB Nat Nat) 0) 1 10) 2 20).store
      = [] := by
  have h := writeCache_eviction
    (WriteCache (EraseCache (⟨[], [], [], 2, false, []⟩ : EvoDB Nat Nat) 0) 1 10) 2 20
  have h2 := h.2.1 (by decide)
  refine ⟨?_, h.1⟩
  rw [h2.1]
  decide

/-- Cache state holding key 5 in the backing store with a pending erase of
key 5: `EraseCache(5)` on a store containing `5 ↦ 7`. -/
def evoC2pre : EvoDB Nat Nat := EraseCache ⟨[], [], [], 10, false, [(5, 7)]⟩ 5

/-- Claim C2, failing execution: key 5 has a pending erase, the flush
triggered by the next read FAILS (so the pending erase is still recorded
afterwards), yet `ReadCache(5)` returns the stale backing-store value 7 —
`ReadCache` falls through to the store without ever consulting the
pending-erase set. -/
theorem readCache_stale_after_failed_flush :
    5 ∈ evoC2pre.setEraseCache ∧
    (ReadCache false evoC2pre 5).1 = some 7 ∧
    (ReadCache false evoC2pre 5).2.setEraseCache = [5] := by
  decide

end OwleeModel

namespace OwleeModel

/-!
## Recovered-signature store (`src/llmq/quorums_signing.cpp`, `CRecoveredSigsDb`)

`uint256` values become `Nat`.  Hashes produced by injective serialization
are modelled by the serialized content itself: the content hash
`CRecoveredSig::GetHash()` (`SerializeHash(*this)`) is the record, and the
sign hash is the `(quorumHash, id, msgHash)` triple.  The on-disk store is
one association list over the composite keys the code uses
(`"rs_r"`, `"rs_h"`, `"rs_s"`, `"rs_t"`, `"rs_v"`, `"rs_vt"`), and a
`CDBBatch` is a list of put/erase operations applied in order.
-/

/-- `CRecoveredSig`: (quorum hash, signing id, message hash, threshold
signature).  The in-memory content hash is the record itself. -/
structure CRecoveredSig where
  quorumHash : Nat
  id : Nat
  msgHash : Nat
  sig : Nat
deriving DecidableEq

/-- Modelled from the spec: `CLLMQUtils::BuildSignHash` (its implementation
is not under `src/`) derives the sign hash from quorum hash + id + message
hash; it is modelled as the injective triple. -/
def buildSignHash (quorumHash id msgHash : Nat) : Nat × Nat × Nat :=
  (quorumHash, id, msgHash)

/-- `CRecoveredSig`'s sign hash, as built by `BuildSignHash(s.quorumHash, s.id, s.msgHash)`. -/
def signHashOf (r : CRecoveredSig) : Nat × Nat × Nat :=
  buildSignHash r.quorumHash r.id r.msgHash

/-- Composite keys of `CRecoveredSigsDb`'s single underlying `CDBWrapper`. -/
inductive RsKey where
  /-- `("rs_r", id)` — the record itself. -/
  | rsR (id : Nat)
  /-- `("rs_r", id, msgHash)` — write-time, also the (id,msgHash) existence key. -/
  | rsRM (id : Nat) (msgHash : Nat)
  /-- `("rs_h", contentHash)` — content hash to id. -/
  | rsH (hash : CRecoveredSig)
  /-- `("rs_s", signHash)` — session existence key. -/
  | rsS (sh : Nat × Nat × Nat)
  /-- `("rs_t", be32(time), id)` — time bucket for aging sweeps. -/
  | rsT (time : Nat) (id : Nat)
  /-- `("rs_v", id)` — vote record (id to message hash). -/
  | rsV (id : Nat)
  /-- `("rs_vt", be32(time), id)` — vote time bucket. -/
  | rsVT (time : Nat) (id : Nat)
deriving DecidableEq

/-- Values stored under `RsKey`s: a serialized record, or a number
(a write time, an id, a message hash, or the `(uint8_t)1` marker). -/
inductive RsVal where
  | vsig (r : CRecoveredSig)
  | vnum (n : Nat)
deriving DecidableEq

/-- One `CDBBatch` operation. -/
inductive BatchOp where
  | bput (k : RsKey) (v : RsVal)
  | bdel (k : RsKey)
deriving DecidableEq

/-- `CDBWrapper::WriteBatch`: apply the batched operations in order.
(The recovered-signature code ignores the result of `WriteBatch`, so the
batch is modelled as always applied.) -/
def applyBatch (st : List (RsKey × RsVal)) (b : List BatchOp) : List (RsKey × RsVal) :=
  b.foldl (fun st op => match op with
    | .bput k v => aput st k v
    | .bdel k => aremove st k) st

/-- `CRecoveredSigsDb`: the store plus the three LRU caches fronting the
boolean existence checks.  Modelled from the spec: `unordered_lru_cache` is
not under `src/`; per the spec the caches are "small LRU caches front the
three boolean existence checks … cache entries are invalidated precisely on
write/remove, never left stale", modelled as unbounded association lists
(the 30000-entry eviction bound is not modelled). -/
structure RecSigsDb where
  store : List (RsKey × RsVal)
  hasSigForIdCache : List (Nat × Bool)
  hasSigForSessionCache : List ((Nat × Nat × Nat) × Bool)
  hasSigForHashCache : List (CRecoveredSig × Bool)
deriving DecidableEq

/-- The empty database. -/
def emptyRsDb : RecSigsDb := ⟨[], [], [], []⟩

/-- `CRecoveredSigsDb::HasRecoveredSig(id, msgHash)`: uncached existence
check of the `("rs_r", id, msgHash)` key. -/
def HasRecoveredSig (db : RecSigsDb) (id msgHash : Nat) : Bool :=
  (alookup db.store (.rsRM id msgHash)).isSome

/-- `CRecoveredSigsDb::HasRecoveredSigForId`: consult the LRU cache, else
check the `("rs_r", id)` key and cache the result. -/
def HasRecoveredSigForId (db : RecSigsDb) (id : Nat) : Bool × RecSigsDb :=
  match alookup db.hasSigForIdCache id with
  | some b => (b, db)
  | none =>
    let r := (alookup db.store (.rsR id)).isSome
    (r, { db with hasSigForIdCache := aput db.hasSigForIdCache id r })

/-- `CRecoveredSigsDb::HasRecoveredSigForSession`: cached existence check of
the `("rs_s", signHash)` key. -/
def HasRecoveredSigForSession (db : RecSigsDb) (sh : Nat × Nat × Nat) : Bool × RecSigsDb :=
  match alookup db.hasSigForSessionCache sh with
  | some b => (b, db)
  | none =>
    let r := (alookup db.store (.rsS sh)).isSome
    (r, { db with hasSigForSessionCache := aput db.hasSigForSessionCache sh r })

/-- `CRecoveredSigsDb::HasRecoveredSigForHash`: cached existence check of
the `("rs_h", hash)` key. -/
def HasRecoveredSigForHash (db : RecSigsDb) (hash : CRecoveredSig) : Bool × RecSigsDb :=
  match alookup db.hasSigForHashCache hash with
  | some b => (b, db)
  | none =>
    let r := (alookup db.store (.rsH hash)).isSome
    (r, { db with hasSigForHashCache := aput db.hasSigForHashCache hash r })

/-- `CRecoveredSigsDb::ReadRecoveredSig`: read the record under `("rs_r", id)`. -/
def ReadRecoveredSig (db : RecSigsDb) (id : Nat) : Option CRecoveredSig :=
  match alookup db.store (.rsR id) with
  | some (.vsig r) => some r
  | _ => none

/-- `CRecoveredSigsDb::GetRecoveredSigById` forwards to `ReadRecoveredSig`. -/
def GetRecoveredSigById (db : RecSigsDb) (id : Nat) : Option CRecoveredSig :=
  ReadRecoveredSig db id

/-- `CRecoveredSigsDb::WriteRecoveredSig`: one batch writing the five keys
(record, write-time, by-content-hash, by-sign-hash, time bucket), then mark
all three existence caches true.  `curTime` is the `uint32_t` cast of the
adjusted-time seconds. -/
def WriteRecoveredSig (now : Nat) (recSig : CRecoveredSig) (db : RecSigsDb) : RecSigsDb :=
  let curTime := now % 4294967296
  let sh := signHashOf recSig
  let batch : List BatchOp :=
    [.bput (.rsR recSig.id) (.vsig recSig),
     .bput (.rsRM recSig.id recSig.msgHash) (.vnum curTime),
     .bput (.rsH recSig) (.vnum recSig.id),
     .bput (.rsS sh) (.vnum 1),
     .bput (.rsT curTime recSig.id) (.vnum 1)]
  { store := applyBatch db.store batch,
    hasSigForIdCache := aput db.hasSigForIdCache recSig.id true,
    hasSigForSessionCache := aput db.hasSigForSessionCache sh true,
    hasSigForHashCache := aput db.hasSigForHashCache recSig true }

/-- `CRecoveredSigsDb::RemoveRecoveredSig(batch, id, deleteHashKey, deleteTimeKey)`:
read the record (no-op when absent), append the erases of its keys to the
batch (content-hash and time-bucket keys only when requested), and
invalidate the corresponding cache entries immediately.  The store itself is
only modified when the batch is later applied. -/
def RemoveRecoveredSigBatch (batch : List BatchOp) (id : Nat)
    (deleteHashKey deleteTimeKey : Bool) (db : RecSigsDb) : List BatchOp × RecSigsDb :=
  match ReadRecoveredSig db id with
  | none => (batch, db)
  | some recSig =>
    let sh := signHashOf recSig
    let b1 := batch ++ [.bdel (.rsR recSig.id), .bdel (.rsRM recSig.id recSig.msgHash)]
    let b2 := if deleteHashKey then b1 ++ [.bdel (.rsH recSig)] else b1
    let b3 := b2 ++ [.bdel (.rsS sh)]
    let b4 := if deleteTimeKey then
        match alookup db.store (.rsRM recSig.id recSig.msgHash) with
        | some (.vnum writeTime) => b3 ++ [.bdel (.rsT writeTime recSig.id)]
        | _ => b3
      else b3
    (b4, { db with
      hasSigForIdCache := aremove db.hasSigForIdCache recSig.id,
      hasSigForSessionCache := aremove db.hasSigForSessionCache sh,
      hasSigForHashCache := if deleteHashKey then aremove db.hasSigForHashCache recSig
        else db.hasSigForHashCache })

/-- `CRecoveredSigsDb::RemoveRecoveredSig(id)`: complete removal (hash and
time keys included), batch applied immediately. -/
def RemoveRecoveredSig (id : Nat) (db : RecSigsDb) : RecSigsDb :=
  let out := RemoveRecoveredSigBatch [] id true true db
  { out.2 with store := applyBatch out.2.store out.1 }

/-- `CRecoveredSigsDb::TruncateRecoveredSig(id)`: partial delete — erase the
record and the keys leading from id to it, but keep the by-content-hash key
(and its cache entry) and the time-bucket key. -/
def TruncateRecoveredSig (id : Nat) (db : RecSigsDb) : RecSigsDb :=
  let out := RemoveRecoveredSigBatch [] id false false db
  { out.2 with store := applyBatch out.2.store out.1 }

/-- `endTime` of `CRecoveredSigsDb::CleanupOldRecoveredSigs`:
`(uint32_t)(TicksSinceEpoch<seconds>(GetAdjustedTime()) - maxAge)` — the
`int64_t` difference cast (i.e. reduced modulo 2^32) to `uint32_t`. -/
def cleanupEndTime (now : Nat) (maxAge : Int) : Nat :=
  (((now : Int) - maxAge).emod 4294967296).toNat

/-- `CRecoveredSigsDb::CleanupOldRecoveredSigs(maxAge)`: collect every
`("rs_t", time, id)` entry with `time < endTime` (the cursor iterates the
time-ordered prefix and stops at the first entry at-or-after `endTime`,
which collects exactly these), remove each collected id completely except
for its time key, erase the collected time keys, and apply the batch.
(The code flushes the batch in bounded chunks mid-loop and ignores the
write results; the net store effect is the same and is modelled as one
application.) -/
def rsTimeSel (endTime : Nat) : RsKey × RsVal → Option (Nat × Nat) := fun kv =>
  match kv.1 with
  | .rsT t i => if t < endTime then some (t, i) else none
  | _ => none

def CleanupOldRecoveredSigs (now : Nat) (maxAge : Int) (db : RecSigsDb) : RecSigsDb :=
  let endTime := cleanupEndTime now maxAge
  let expired := db.store.filterMap (rsTimeSel endTime)
  if expired.isEmpty then db
  else
    let out := expired.foldl
      (fun acc ti => RemoveRecoveredSigBatch acc.1 ti.2 true false acc.2) ([], db)
    let b2 := out.1 ++ expired.map (fun ti => .bdel (.rsT ti.1 ti.2))
    { out.2 with store := applyBatch out.2.store b2 }

/-- `CRecoveredSigsDb::HasVotedOnId`: uncached existence of `("rs_v", id)`. -/
def HasVotedOnId (db : RecSigsDb) (id : Nat) : Bool :=
  (alookup db.store (.rsV id)).isSome

/-- `CRecoveredSigsDb::GetVoteForId`: read the voted message hash. -/
def GetVoteForId (db : RecSigsDb) (id : Nat) : Option Nat :=
  match alookup db.store (.rsV id) with
  | some (.vnum m) => some m
  | _ => none

/-- `CRecoveredSigsDb::WriteVoteForId`: one batch writing the vote record
and its time bucket. -/
def WriteVoteForId (now : Nat) (id msgHash : Nat) (db : RecSigsDb) : RecSigsDb :=
  let batch : List BatchOp :=
    [.bput (.rsV id) (.vnum msgHash), .bput (.rsVT (now % 4294967296) id) (.vnum 1)]
  { db with store := applyBatch db.store batch }

end OwleeModel

namespace OwleeModel

theorem alookup_aput_eq {K V : Type} [DecidableEq K] (l : List (K × V)) (k x : K) (v : V) :
    alookup (aput l k v) x = if x = k then some v else alookup l x := by
  by_cases h : x = k
  · subst h
    simp [alookup_aput_self]
  · simp [h, alookup_aput_ne l k x v h]

theorem alookup_aremove_eq {K V : Type} [DecidableEq K] (l : List (K × V)) (k x : K) :
    alookup (aremove l k) x = if x = k then none else alookup l x := by
  by_cases h : x = k
  · subst h
    simp [alookup_aremove_self]
  · simp [h, alookup_aremove_ne l k x h]

/-- Per-key effect of `WriteRecoveredSig` on the store: the five written keys
get their new values (later batch entries shadow earlier ones), all other
keys are untouched. -/
theorem alookup_store_write (now : Nat) (r : CRecoveredSig) (db : RecSigsDb) (x : RsKey) :
    alookup (WriteRecoveredSig now r db).store x =
      if x = .rsT (now % 4294967296) r.id then some (.vnum 1)
      else if x = .rsS (signHashOf r) then some (.vnum 1)
      else if x = .rsH r then some (.vnum r.id)
      else if x = .rsRM r.id r.msgHash then some (.vnum (now % 4294967296))
      else if x = .rsR r.id then some (.vsig r)
      else alookup db.store x := by
  simp only [WriteRecoveredSig, applyBatch, List.foldl_cons, List.foldl_nil,
    alookup_aput_eq]

/-- Claim C7: for a recovered signature previously written to the store,
`TruncateRecoveredSig(id)` deletes the id-keyed record, the `(id, msgHash)`
key and the session/sign-hash index (so `HasRecoveredSigForId` turns false)
while leaving the by-content-hash index entry and its cache entry in place
(so `HasRecoveredSigForHash` of the object stays true). -/
theorem truncate_keeps_hash (now : Nat) (r : CRecoveredSig) (db0 : RecSigsDb) :
    (HasRecoveredSigForId (TruncateRecoveredSig r.id (WriteRecoveredSig now r db0)) r.id).1 = false ∧
    (HasRecoveredSigForHash (TruncateRecoveredSig r.id (WriteRecoveredSig now r db0)) r).1 = true ∧
    alookup (TruncateRecoveredSig r.id (WriteRecoveredSig now r db0)).store (.rsR r.id) = none ∧
    alookup (TruncateRecoveredSig r.id (WriteRecoveredSig now r db0)).store (.rsRM r.id r.msgHash) = none ∧
    alookup (TruncateRecoveredSig r.id (WriteRecoveredSig now r db0)).store (.rsS (signHashOf r)) = none ∧
    alookup (TruncateRecoveredSig r.id (WriteRecoveredSig now r db0)).store (.rsH r) = some (.vnum r.id) ∧
    alookup (TruncateRecoveredSig r.id (WriteRecoveredSig now r db0)).hasSigForHashCache r = some true := by
  have hread : ReadRecoveredSig (WriteRecoveredSig now r db0) r.id = some r := by
    rw [ReadRecoveredSig, alookup_store_write]
    simp
  have htrunc : TruncateRecoveredSig r.id (WriteRecoveredSig now r db0) =
      { store := applyBatch (WriteRecoveredSig now r db0).store
          [.bdel (.rsR r.id), .bdel (.rsRM r.id r.msgHash), .bdel (.rsS (signHashOf r))],
        hasSigForIdCache := aremove (WriteRecoveredSig now r db0).hasSigForIdCache r.id,
        hasSigForSessionCache :=
          aremove (WriteRecoveredSig now r db0).hasSigForSessionCache (signHashOf r),
        hasSigForHashCache := (WriteRecoveredSig now r db0).hasSigForHashCache } := by
    rw [TruncateRecoveredSig, RemoveRecoveredSigBatch, hread]
    simp
  rw [htrunc]
  simp only [applyBatch, List.foldl_cons, List.foldl_nil]
  refine ⟨?_, ?_, ?_, ?_, ?_, ?_, ?_⟩
  · rw [HasRecoveredSigForId]
    simp only [WriteRecoveredSig, alookup_aput_eq, alookup_aremove_eq, if_pos rfl]
    simp [alookup_aremove_eq, alookup_aremove_self]
  · rw [HasRecoveredSigForHash]
    simp [WriteRecoveredSig, alookup_aput_eq]
  · simp [alookup_aremove_eq]
  · simp [alookup_aremove_eq]
  · simp [alookup_aremove_eq]
  · simp [alookup_aremove_eq, alookup_store_write]
  · simp [WriteRecoveredSig, alookup_aput_eq]

end OwleeModel


namespace OwleeModel

/-- The five store entries `WriteRecoveredSig` produces for one record. -/
def sigEntries (t : Nat) (r : CRecoveredSig) : List (RsKey × RsVal) :=
  [(.rsR r.id, .vsig r), (.rsRM r.id r.msgHash, .vnum t), (.rsH r, .vnum r.id),
   (.rsS (signHashOf r), .vnum 1), (.rsT t r.id, .vnum 1)]

/-- The signing id owning a composite key (every key family is namespaced by
an id). -/
def keyId : RsKey → Nat
  | .rsR i => i
  | .rsRM i _ => i
  | .rsH h => h.id
  | .rsS sh => sh.2.1
  | .rsT _ i => i
  | .rsV i => i
  | .rsVT _ i => i

/-- A sequence of `WriteRecoveredSig` operations. -/
def writeAll (ws : List (Nat × CRecoveredSig)) (db : RecSigsDb) : RecSigsDb :=
  ws.foldl (fun db tr => WriteRecoveredSig tr.1 tr.2 db) db

theorem keyId_sigEntries (t : Nat) (r : CRecoveredSig) (kv : RsKey × RsVal)
    (h : kv ∈ sigEntries t r) : keyId kv.1 = r.id := by
  simp only [sigEntries, List.mem_cons, List.not_mem_nil, or_false] at h
  rcases h with h | h | h | h | h <;> rw [h] <;> rfl

theorem write_store_untouched (now : Nat) (r : CRecoveredSig) (db : RecSigsDb) (k : RsKey)
    (h : keyId k ≠ r.id) :
    alookup (WriteRecoveredSig now r db).store k = alookup db.store k := by
  rw [alookup_store_write]
  rw [if_neg (fun he => h (by rw [he]; rfl)), if_neg (fun he => h (by rw [he]; rfl)),
    if_neg (fun he => h (by rw [he]; rfl)), if_neg (fun he => h (by rw [he]; rfl)),
    if_neg (fun he => h (by rw [he]; rfl))]

theorem writeAll_store_untouched (ws : List (Nat × CRecoveredSig)) (db : RecSigsDb)
    (k : RsKey) (h : ∀ tr ∈ ws, keyId k ≠ tr.2.id) :
    alookup (writeAll ws db).store k = alookup db.store k := by
  induction ws generalizing db with
  | nil => rfl
  | cons tr0 tl ih =>
    rw [writeAll, List.foldl_cons]
    rw [show List.foldl (fun db tr => WriteRecoveredSig tr.1 tr.2 db)
      (WriteRecoveredSig tr0.1 tr0.2 db) tl = writeAll tl (WriteRecoveredSig tr0.1 tr0.2 db) from rfl]
    rw [ih _ (fun tr htr => h tr (List.mem_cons_of_mem _ htr))]
    exact write_store_untouched tr0.1 tr0.2 db k (h tr0 (List.mem_cons_self _ _))

theorem writeAll_read (ws : List (Nat × CRecoveredSig)) (db : RecSigsDb)
    (hnd : (ws.map (fun tr => tr.2.id)).Nodup) :
    ∀ tr ∈ ws, alookup (writeAll ws db).store (.rsR tr.2.id) = some (.vsig tr.2) := by
  induction ws generalizing db with
  | nil => intro tr htr; cases htr
  | cons tr0 tl ih =>
    simp only [List.map_cons, List.nodup_cons] at hnd
    intro tr htr
    rcases List.mem_cons.1 htr with heq | hmem
    · subst heq
      rw [writeAll, List.foldl_cons]
      rw [show List.foldl (fun db tr => WriteRecoveredSig tr.1 tr.2 db)
        (WriteRecoveredSig tr.1 tr.2 db) tl = writeAll tl (WriteRecoveredSig tr.1 tr.2 db) from rfl]
      have hunt : ∀ tr1 ∈ tl, keyId (RsKey.rsR tr.2.id) ≠ tr1.2.id := by
        intro tr1 htr1 he
        simp only [keyId] at he
        apply hnd.1
        rw [he]
        exact List.mem_map_of_mem _ htr1
      rw [writeAll_store_untouched tl _ _ hunt]
      rw [alookup_store_write]
      simp
    · rw [writeAll, List.foldl_cons]
      exact ih (WriteRecoveredSig tr0.1 tr0.2 db) hnd.2 tr hmem

theorem puts_append (entries : List (RsKey × RsVal)) (st : List (RsKey × RsVal))
    (hnd : (entries.map Prod.fst).Nodup)
    (hfr : ∀ k ∈ entries.map Prod.fst, k ∉ st.map Prod.fst) :
    applyBatch st (entries.map (fun kv => BatchOp.bput kv.1 kv.2)) = st ++ entries := by
  induction entries generalizing st with
  | nil => simp [applyBatch]
  | cons kv t ih =>
    simp only [List.map_cons, List.nodup_cons] at hnd
    have hstep : aput st kv.1 kv.2 = st ++ [kv] := by
      rw [aput, aremove_eq_of_not_mem st kv.1 (hfr kv.1 (by simp))]
    have hfr2 : ∀ k ∈ t.map Prod.fst, k ∉ (st ++ [kv]).map Prod.fst := by
      intro k hk hmem
      rw [List.map_append] at hmem
      rcases List.mem_append.1 hmem with hmem | hmem
      · exact hfr k (by simp [hk]) hmem
      · simp only [List.map_cons, List.map_nil, List.mem_singleton] at hmem
        exact hnd.1 (hmem ▸ hk)
    calc applyBatch st ((kv :: t).map (fun kv => BatchOp.bput kv.1 kv.2))
        = applyBatch (aput st kv.1 kv.2) (t.map (fun kv => BatchOp.bput kv.1 kv.2)) := rfl
      _ = applyBatch (st ++ [kv]) (t.map (fun kv => BatchOp.bput kv.1 kv.2)) := by rw [hstep]
      _ = st ++ [kv] ++ t := ih (st ++ [kv]) hnd.2 hfr2
      _ = st ++ (kv :: t) := by simp

theorem write_store_append (now : Nat) (r : CRecoveredSig) (db : RecSigsDb)
    (hf : ∀ kv ∈ db.store, keyId kv.1 ≠ r.id) :
    (WriteRecoveredSig now r db).store = db.store ++ sigEntries (now % 4294967296) r := by
  have h5 : ((sigEntries (now % 4294967296) r).map Prod.fst).Nodup := by
    simp [sigEntries]
  have hfr : ∀ k ∈ (sigEntries (now % 4294967296) r).map Prod.fst,
      k ∉ db.store.map Prod.fst := by
    intro k hk hmem
    rcases List.mem_map.1 hk with ⟨kv, hkv, hfst⟩
    rcases List.mem_map.1 hmem with ⟨kv2, hkv2, hfst2⟩
    exact hf kv2 hkv2 (by rw [hfst2, ← hfst, keyId_sigEntries _ _ _ hkv])
  calc (WriteRecoveredSig now r db).store
      = applyBatch db.store
          ((sigEntries (now % 4294967296) r).map (fun kv => BatchOp.bput kv.1 kv.2)) := rfl
    _ = db.store ++ sigEntries (now % 4294967296) r := puts_append _ _ h5 hfr

theorem writeAll_store_shape (ws : List (Nat × CRecoveredSig)) (db : RecSigsDb)
    (hnd : (ws.map (fun tr => tr.2.id)).Nodup)
    (hfresh : ∀ kv ∈ db.store, ∀ tr ∈ ws, keyId kv.1 ≠ tr.2.id) :
    (writeAll ws db).store
      = db.store ++ (ws.map (fun tr => sigEntries (tr.1 % 4294967296) tr.2)).flatten := by
  induction ws generalizing db with
  | nil => simp [writeAll]
  | cons tr0 tl ih =>
    simp only [List.map_cons, List.nodup_cons] at hnd
    rw [writeAll, List.foldl_cons]
    rw [show List.foldl (fun db tr => WriteRecoveredSig tr.1 tr.2 db)
      (WriteRecoveredSig tr0.1 tr0.2 db) tl = writeAll tl (WriteRecoveredSig tr0.1 tr0.2 db) from rfl]
    have hstep := write_store_append tr0.1 tr0.2 db
      (fun kv hkv => hfresh kv hkv tr0 (List.mem_cons_self _ _))
    have hfresh2 : ∀ kv ∈ (WriteRecoveredSig tr0.1 tr0.2 db).store, ∀ tr ∈ tl,
        keyId kv.1 ≠ tr.2.id := by
      intro kv hkv tr htr
      rw [hstep] at hkv
      rcases List.mem_append.1 hkv with hkv | hkv
      · exact hfresh kv hkv tr (List.mem_cons_of_mem _ htr)
      · intro he
        apply hnd.1
        rw [← keyId_sigEntries _ _ _ hkv, he]
        exact List.mem_map_of_mem _ htr
    rw [ih (WriteRecoveredSig tr0.1 tr0.2 db) hnd.2 hfresh2]
    rw [hstep, List.map_cons, List.flatten_cons, List.append_assoc]

theorem writeAll_idCache (ws : List (Nat × CRecoveredSig)) (db : RecSigsDb) (i : Nat) :
    alookup (writeAll ws db).hasSigForIdCache i
      = if i ∈ ws.map (fun tr => tr.2.id) then some true
        else alookup db.hasSigForIdCache i := by
  induction ws generalizing db with
  | nil => simp [writeAll]
  | cons tr0 tl ih =>
    rw [writeAll, List.foldl_cons]
    rw [show List.foldl (fun db tr => WriteRecoveredSig tr.1 tr.2 db)
      (WriteRecoveredSig tr0.1 tr0.2 db) tl = writeAll tl (WriteRecoveredSig tr0.1 tr0.2 db) from rfl]
    rw [ih (WriteRecoveredSig tr0.1 tr0.2 db)]
    have hc : (WriteRecoveredSig tr0.1 tr0.2 db).hasSigForIdCache
        = aput db.hasSigForIdCache tr0.2.id true := rfl
    by_cases hmem : i ∈ tl.map (fun tr => tr.2.id)
    · simp [hmem]
    · by_cases hi : i = tr0.2.id
      · subst hi
        simp [hmem, hc, alookup_aput_eq]
      · simp [hmem, hi, hc, alookup_aput_eq]

end OwleeModel

namespace OwleeModel

/-- The four erases `RemoveRecoveredSig(batch, id, true, false)` emits for a
stored record (hash key included, time key excluded — the cleanup sweep
erases time keys separately). -/
def delsOf (r : CRecoveredSig) : List BatchOp :=
  [.bdel (.rsR r.id), .bdel (.rsRM r.id r.msgHash), .bdel (.rsH r),
   .bdel (.rsS (signHashOf r))]

/-- The keys erased by a batch. -/
def delKeys (b : List BatchOp) : List RsKey :=
  b.filterMap (fun op => match op with
    | .bdel k => some k
    | .bput _ _ => none)

theorem alookup_applyBatch_dels (b : List BatchOp) (st : List (RsKey × RsVal)) (k : RsKey)
    (h : ∀ op ∈ b, ∀ k0 v0, op ≠ .bput k0 v0) :
    alookup (applyBatch st b) k = if k ∈ delKeys b then none else alookup st k := by
  induction b generalizing st with
  | nil => simp [applyBatch, delKeys]
  | cons op t ih =>
    cases op with
    | bput k0 v0 => exact absurd rfl (h _ (List.mem_cons_self _ _) k0 v0)
    | bdel k0 =>
      have hstep : applyBatch st (BatchOp.bdel k0 :: t) = applyBatch (aremove st k0) t := rfl
      rw [hstep, ih (aremove st k0) (fun op hop => h op (List.mem_cons_of_mem _ hop))]
      have hdk : delKeys (BatchOp.bdel k0 :: t) = k0 :: delKeys t := rfl
      rw [hdk]
      by_cases hm : k ∈ delKeys t
      · simp [hm]
      · by_cases hk : k = k0
        · subst hk
          simp [hm, alookup_aremove_self]
        · simp [hm, hk, alookup_aremove_eq]

theorem removeBatch_store (batch : List BatchOp) (id : Nat) (dh dt : Bool) (db : RecSigsDb) :
    (RemoveRecoveredSigBatch batch id dh dt db).2.store = db.store := by
  rw [RemoveRecoveredSigBatch]
  cases ReadRecoveredSig db id <;> rfl

/-- The cleanup loop over the collected `(time, id)` pairs. -/
def cleanupFold (es : List (Nat × Nat)) (acc : List BatchOp × RecSigsDb) :
    List BatchOp × RecSigsDb :=
  es.foldl (fun acc ti => RemoveRecoveredSigBatch acc.1 ti.2 true false acc.2) acc

theorem cleanupFold_store (es : List (Nat × Nat)) (acc : List BatchOp × RecSigsDb) :
    (cleanupFold es acc).2.store = acc.2.store := by
  induction es generalizing acc with
  | nil => rfl
  | cons ti t ih =>
    rw [cleanupFold, List.foldl_cons]
    rw [show List.foldl (fun acc ti => RemoveRecoveredSigBatch acc.1 ti.2 true false acc.2)
      (RemoveRecoveredSigBatch acc.1 ti.2 true false acc.2) t
      = cleanupFold t (RemoveRecoveredSigBatch acc.1 ti.2 true false acc.2) from rfl]
    rw [ih, removeBatch_store]

/-- Effect of `RemoveRecoveredSig(batch, id, true, false)` when the record is
found: the four erases are appended and the caches invalidated. -/
theorem removeBatch_found (batch : List BatchOp) (r : CRecoveredSig) (db : RecSigsDb)
    (h : ReadRecoveredSig db r.id = some r) :
    RemoveRecoveredSigBatch batch r.id true false db
      = (batch ++ delsOf r,
         { db with hasSigForIdCache := aremove db.hasSigForIdCache r.id,
                   hasSigForSessionCache := aremove db.hasSigForSessionCache (signHashOf r),
                   hasSigForHashCache := aremove db.hasSigForHashCache r }) := by
  rw [RemoveRecoveredSigBatch, h]
  simp [delsOf]

theorem cleanupFold_batch (ws : List (Nat × CRecoveredSig)) (b : List BatchOp)
    (db : RecSigsDb)
    (hread : ∀ tr ∈ ws, alookup db.store (.rsR tr.2.id) = some (.vsig tr.2)) :
    (cleanupFold (ws.map (fun tr => (tr.1 % 4294967296, tr.2.id))) (b, db)).1
      = b ++ (ws.map (fun tr => delsOf tr.2)).flatten := by
  induction ws generalizing b db with
  | nil => simp [cleanupFold]
  | cons tr0 tl ih =>
    have hr0 : ReadRecoveredSig db tr0.2.id = some tr0.2 := by
      rw [ReadRecoveredSig, hread tr0 (List.mem_cons_self _ _)]
    rw [List.map_cons, cleanupFold, List.foldl_cons]
    rw [show List.foldl (fun acc ti => RemoveRecoveredSigBatch acc.1 ti.2 true false acc.2)
      (RemoveRecoveredSigBatch b tr0.2.id true false db)
      (tl.map (fun tr => (tr.1 % 4294967296, tr.2.id)))
      = cleanupFold (tl.map (fun tr => (tr.1 % 4294967296, tr.2.id)))
          (RemoveRecoveredSigBatch b tr0.2.id true false db) from rfl]
    rw [removeBatch_found b tr0.2 db hr0]
    have hread2 : ∀ tr ∈ tl, alookup ({ db with
        hasSigForIdCache := aremove db.hasSigForIdCache tr0.2.id,
        hasSigForSessionCache := aremove db.hasSigForSessionCache (signHashOf tr0.2),
        hasSigForHashCache := aremove db.hasSigForHashCache tr0.2 } : RecSigsDb).store
          (RsKey.rsR tr.2.id) = some (RsVal.vsig tr.2) :=
      fun tr htr => hread tr (List.mem_cons_of_mem _ htr)
    rw [ih _ _ hread2]
    simp

theorem cleanupFold_idCache (ws : List (Nat × CRecoveredSig)) (b : List BatchOp)
    (db : RecSigsDb) (i : Nat)
    (hread : ∀ tr ∈ ws, alookup db.store (.rsR tr.2.id) = some (.vsig tr.2)) :
    alookup (cleanupFold (ws.map (fun tr => (tr.1 % 4294967296, tr.2.id)))
        (b, db)).2.hasSigForIdCache i
      = if i ∈ ws.map (fun tr => tr.2.id) then none
        else alookup db.hasSigForIdCache i := by
  induction ws generalizing b db with
  | nil => simp [cleanupFold]
  | cons tr0 tl ih =>
    have hr0 : ReadRecoveredSig db tr0.2.id = some tr0.2 := by
      rw [ReadRecoveredSig, hread tr0 (List.mem_cons_self _ _)]
    rw [List.map_cons, cleanupFold, List.foldl_cons]
    rw [show List.foldl (fun acc ti => RemoveRecoveredSigBatch acc.1 ti.2 true false acc.2)
      (RemoveRecoveredSigBatch b tr0.2.id true false db)
      (tl.map (fun tr => (tr.1 % 4294967296, tr.2.id)))
      = cleanupFold (tl.map (fun tr => (tr.1 % 4294967296, tr.2.id)))
          (RemoveRecoveredSigBatch b tr0.2.id true false db) from rfl]
    rw [removeBatch_found b tr0.2 db hr0]
    have hread2 : ∀ tr ∈ tl, alookup ({ db with
        hasSigForIdCache := aremove db.hasSigForIdCache tr0.2.id,
        hasSigForSessionCache := aremove db.hasSigForSessionCache (signHashOf tr0.2),
        hasSigForHashCache := aremove db.hasSigForHashCache tr0.2 } : RecSigsDb).store
          (RsKey.rsR tr.2.id) = some (RsVal.vsig tr.2) :=
      fun tr htr => hread tr (List.mem_cons_of_mem _ htr)
    rw [ih _ _ hread2]
    by_cases hmem : i ∈ tl.map (fun tr => tr.2.id)
    · simp [hmem]
    · by_cases hi : i = tr0.2.id
      · subst hi
        simp [hmem, alookup_aremove_self]
      · simp [hmem, hi, alookup_aremove_eq]

theorem flatten_ite_singleton {A B : Type} (ws : List A) (p : A → Prop) [DecidablePred p]
    (f : A → B) :
    (ws.map (fun a => if p a then [f a] else [])).flatten
      = (ws.filter (fun a => decide (p a))).map f := by
  induction ws with
  | nil => rfl
  | cons a t ih =>
    by_cases hp : p a
    · simp [hp, ih, List.filter_cons]
    · simp [hp, ih, List.filter_cons]

theorem filterMap_flatten {A B : Type} (f : A → Option B) (l : List (List A)) :
    l.flatten.filterMap f = (l.map (fun x => x.filterMap f)).flatten := by
  induction l with
  | nil => rfl
  | cons x t ih =>
    rw [List.flatten_cons, List.filterMap_append, ih, List.map_cons, List.flatten_cons]

end OwleeModel

namespace OwleeModel

theorem cleanup_expired_eq (now : Nat) (maxAge : Int) (ws : List (Nat × CRecoveredSig))
    (hnd : (ws.map (fun tr => tr.2.id)).Nodup) :
    (writeAll ws emptyRsDb).store.filterMap (rsTimeSel (cleanupEndTime now maxAge))
      = (ws.filter (fun tr => decide (tr.1 % 4294967296 < cleanupEndTime now maxAge))).map
          (fun tr => (tr.1 % 4294967296, tr.2.id)) := by
  have hfresh0 : ∀ kv ∈ emptyRsDb.store, ∀ tr ∈ ws, keyId kv.1 ≠ tr.2.id := by
    intro kv hkv
    exact absurd hkv (List.not_mem_nil _)
  rw [writeAll_store_shape ws emptyRsDb hnd hfresh0]
  rw [show emptyRsDb.store = [] from rfl, List.nil_append]
  rw [filterMap_flatten, List.map_map]
  have hblock : ∀ tr ∈ ws,
      ((fun x => x.filterMap (rsTimeSel (cleanupEndTime now maxAge)))
        ∘ (fun tr => sigEntries (tr.1 % 4294967296) tr.2)) tr
        = (fun tr : Nat × CRecoveredSig =>
            if tr.1 % 4294967296 < cleanupEndTime now maxAge
            then [(tr.1 % 4294967296, tr.2.id)] else []) tr := by
    intro tr _
    by_cases hp : tr.1 % 4294967296 < cleanupEndTime now maxAge <;>
      simp [sigEntries, rsTimeSel, hp]
  rw [List.map_congr_left hblock]
  rw [flatten_ite_singleton ws
    (fun tr => tr.1 % 4294967296 < cleanupEndTime now maxAge)
    (fun tr => (tr.1 % 4294967296, tr.2.id))]

end OwleeModel

namespace OwleeModel

/-- Claim C8 (amended): on a store built by writes with pairwise-distinct
ids, `CleanupOldRecoveredSigs(maxAge)` removes exactly the records whose
time bucket is strictly below `uint32(now - maxAge)`: the record of a write
at bucket time `t` survives iff `uint32(now - maxAge) ≤ t`. -/
theorem cleanup_removes_exactly_old (now : Nat) (maxAge : Int)
    (ws : List (Nat × CRecoveredSig))
    (hnd : (ws.map (fun tr => tr.2.id)).Nodup)
    (ht : ∀ tr ∈ ws, tr.1 < 4294967296) :
    ∀ tr ∈ ws,
      alookup (CleanupOldRecoveredSigs now maxAge (writeAll ws emptyRsDb)).store
          (RsKey.rsR tr.2.id)
        = (if cleanupEndTime now maxAge ≤ tr.1 then some (RsVal.vsig tr.2) else none) ∧
      (HasRecoveredSigForId (CleanupOldRecoveredSigs now maxAge (writeAll ws emptyRsDb))
          tr.2.id).1 = decide (cleanupEndTime now maxAge ≤ tr.1) := by
  intro tr htr
  have hmod : tr.1 % 4294967296 = tr.1 := Nat.mod_eq_of_lt (ht tr htr)
  have hinj := List.inj_on_of_nodup_map hnd
  simp only [CleanupOldRecoveredSigs]
  rw [cleanup_expired_eq now maxAge ws hnd]
  by_cases hany :
      ws.filter (fun tr => decide (tr.1 % 4294967296 < cleanupEndTime now maxAge)) = []
  · rw [hany]
    have hnotold : cleanupEndTime now maxAge ≤ tr.1 := by
      have := List.filter_eq_nil_iff.1 hany tr htr
      simp only [decide_eq_true_eq] at this
      omega
    simp only [List.map_nil]
    rw [if_pos (show ([] : List (Nat × Nat)).isEmpty = true from rfl)]
    constructor
    · rw [writeAll_read ws emptyRsDb hnd tr htr, if_pos hnotold]
    · rw [HasRecoveredSigForId, writeAll_idCache]
      rw [if_pos (List.mem_map_of_mem _ htr)]
      simp [hnotold]
  · have hne :
        ¬(((ws.filter (fun tr =>
            decide (tr.1 % 4294967296 < cleanupEndTime now maxAge))).map
          (fun tr => (tr.1 % 4294967296, tr.2.id))).isEmpty = true) := by
      simp [List.isEmpty_iff, hany]
    rw [if_neg hne]
    have hfold : List.foldl (fun acc ti => RemoveRecoveredSigBatch acc.1 ti.2 true false acc.2)
        ([], writeAll ws emptyRsDb)
        ((ws.filter (fun tr =>
            decide (tr.1 % 4294967296 < cleanupEndTime now maxAge))).map
          (fun tr => (tr.1 % 4294967296, tr.2.id)))
        = cleanupFold ((ws.filter (fun tr =>
            decide (tr.1 % 4294967296 < cleanupEndTime now maxAge))).map
          (fun tr => (tr.1 % 4294967296, tr.2.id))) ([], writeAll ws emptyRsDb) := rfl
    rw [hfold]
    have hreads : ∀ tr1 ∈ ws.filter (fun tr =>
        decide (tr.1 % 4294967296 < cleanupEndTime now maxAge)),
        alookup (writeAll ws emptyRsDb).store (RsKey.rsR tr1.2.id)
          = some (RsVal.vsig tr1.2) :=
      fun tr1 htr1 => writeAll_read ws emptyRsDb hnd tr1 (List.mem_of_mem_filter htr1)
    have hbatch := cleanupFold_batch (ws.filter (fun tr =>
        decide (tr.1 % 4294967296 < cleanupEndTime now maxAge))) [] _ hreads
    have hstore := cleanupFold_store ((ws.filter (fun tr =>
        decide (tr.1 % 4294967296 < cleanupEndTime now maxAge))).map
      (fun tr => (tr.1 % 4294967296, tr.2.id))) ([], writeAll ws emptyRsDb)
    have hcache := cleanupFold_idCache (ws.filter (fun tr =>
        decide (tr.1 % 4294967296 < cleanupEndTime now maxAge))) [] _ tr.2.id hreads
    have honly : ∀ op ∈ ((ws.filter (fun tr =>
          decide (tr.1 % 4294967296 < cleanupEndTime now maxAge))).map
          (fun tr => delsOf tr.2)).flatten
          ++ ((ws.filter (fun tr =>
            decide (tr.1 % 4294967296 < cleanupEndTime now maxAge))).map
          (fun tr => (tr.1 % 4294967296, tr.2.id))).map
            (fun ti => BatchOp.bdel (RsKey.rsT ti.1 ti.2)),
        ∀ k0 v0, op ≠ BatchOp.bput k0 v0 := by
      intro op hop
      rcases List.mem_append.1 hop with hop | hop
      · rcases List.mem_flatten.1 hop with ⟨blk, hblk, hopb⟩
        rcases List.mem_map.1 hblk with ⟨tr1, _, hblk2⟩
        rw [← hblk2] at hopb
        simp only [delsOf, List.mem_cons, List.not_mem_nil, or_false] at hopb
        rcases hopb with h | h | h | h <;> subst h <;>
          exact fun k0 v0 hh => BatchOp.noConfusion hh
      · rcases List.mem_map.1 hop with ⟨ti, _, hti⟩
        rw [← hti]
        exact fun k0 v0 hh => BatchOp.noConfusion hh
    have hdkmem : RsKey.rsR tr.2.id ∈ delKeys
        (((ws.filter (fun tr =>
            decide (tr.1 % 4294967296 < cleanupEndTime now maxAge))).map
          (fun tr => delsOf tr.2)).flatten
          ++ ((ws.filter (fun tr =>
            decide (tr.1 % 4294967296 < cleanupEndTime now maxAge))).map
          (fun tr => (tr.1 % 4294967296, tr.2.id))).map
            (fun ti => BatchOp.bdel (RsKey.rsT ti.1 ti.2)))
        ↔ tr.1 < cleanupEndTime now maxAge := by
      constructor
      · intro hmem
        rcases List.mem_filterMap.1 hmem with ⟨op, hop, hsel⟩
        rcases List.mem_append.1 hop with hop | hop
        · rcases List.mem_flatten.1 hop with ⟨blk, hblk, hopb⟩
          rcases List.mem_map.1 hblk with ⟨tr1, htr1, hblk2⟩
          rw [← hblk2] at hopb
          simp only [delsOf, List.mem_cons, List.not_mem_nil, or_false] at hopb
          have hid : tr1.2.id = tr.2.id := by
            rcases hopb with h | h | h | h <;> subst h <;> simp at hsel
            exact hsel
          have htreq : tr1 = tr :=
            hinj (List.mem_of_mem_filter htr1) htr hid
          have hpred := (List.mem_filter.1 htr1).2
          rw [htreq] at hpred
          simp only [decide_eq_true_eq] at hpred
          omega
        · rcases List.mem_map.1 hop with ⟨ti, _, hti⟩
          rw [← hti] at hsel
          simp [delKeys] at hsel
      · intro hlt
        apply List.mem_filterMap.2
        refine ⟨BatchOp.bdel (RsKey.rsR tr.2.id), ?_, rfl⟩
        apply List.mem_append_left
        apply List.mem_flatten.2
        refine ⟨delsOf tr.2, ?_, by simp [delsOf]⟩
        apply List.mem_map_of_mem
        apply List.mem_filter.2
        exact ⟨htr, by simp [hmod, hlt]⟩
    constructor
    · show alookup (applyBatch _ _) _ = _
      rw [hstore, hbatch, List.nil_append]
      rw [alookup_applyBatch_dels _ _ _ honly]
      by_cases hc : cleanupEndTime now maxAge ≤ tr.1
      · rw [if_neg (fun hm => absurd (hdkmem.1 hm) (by omega)), if_pos hc]
        exact writeAll_read ws emptyRsDb hnd tr htr
      · rw [if_pos (hdkmem.2 (by omega)), if_neg hc]
    · rw [HasRecoveredSigForId]
      show (match alookup (cleanupFold _ _).2.hasSigForIdCache tr.2.id with
        | some b => (b, _)
        | none => _).1 = _
      rw [hcache]
      by_cases hc : cleanupEndTime now maxAge ≤ tr.1
      · have hnotmem : tr.2.id ∉ (ws.filter (fun tr =>
            decide (tr.1 % 4294967296 < cleanupEndTime now maxAge))).map
            (fun tr => tr.2.id) := by
          intro hmem
          rcases List.mem_map.1 hmem with ⟨tr1, htr1, hid⟩
          have htreq : tr1 = tr := hinj (List.mem_of_mem_filter htr1) htr hid
          have hpred := (List.mem_filter.1 htr1).2
          rw [htreq] at hpred
          simp only [decide_eq_true_eq] at hpred
          omega
        rw [if_neg hnotmem, writeAll_idCache, if_pos (List.mem_map_of_mem _ htr)]
        simp [hc]
      · have hmem : tr.2.id ∈ (ws.filter (fun tr =>
            decide (tr.1 % 4294967296 < cleanupEndTime now maxAge))).map
            (fun tr => tr.2.id) := by
          apply List.mem_map_of_mem
          exact List.mem_filter.2 ⟨htr, by simp [hmod]; omega⟩
        rw [if_pos hmem]
        show ((alookup (applyBatch _ _) _).isSome, _).1 = _
        rw [hstore, hbatch, List.nil_append]
        rw [alookup_applyBatch_dels _ _ _ honly]
        rw [if_pos (hdkmem.2 (by omega))]
        simp [hc]

end OwleeModel

namespace OwleeModel

/-- A store holding one recovered signature written at (current) time 100. -/
def rsC8db : RecSigsDb := WriteRecoveredSig 100 ⟨1, 2, 3, 4⟩ emptyRsDb

/-- Claim C8, counterexample: with `maxAge = 0` the sweep's `endTime` equals
the current time, and a record whose time bucket IS the current second is
NOT removed — `CleanupOldRecoveredSigs(0)` is a no-op on it, refuting
"removes every stored record regardless of its insertion time". -/
theorem cleanup_age_zero_keeps_current_record :
    cleanupEndTime 100 0 = 100 ∧
    CleanupOldRecoveredSigs 100 0 rsC8db = rsC8db ∧
    HasRecoveredSig rsC8db 2 3 = true ∧
    (HasRecoveredSigForId rsC8db 2).1 = true := by
  decide

/-- Claim C8 (amended), witness: two records written at bucket times 5 and
200; a sweep at time 100 with `maxAge = 50` (endTime 50) removes exactly the
one older than 50. -/
theorem cleanup_removes_exactly_old_witness :
    alookup (CleanupOldRecoveredSigs 100 50
        (writeAll [(5, ⟨1, 2, 3, 4⟩), (200, ⟨7, 8, 9, 10⟩)] emptyRsDb)).store
      (RsKey.rsR 2) = none ∧
    alookup (CleanupOldRecoveredSigs 100 50
        (writeAll [(5, ⟨1, 2, 3, 4⟩), (200, ⟨7, 8, 9, 10⟩)] emptyRsDb)).store
      (RsKey.rsR 8) = some (RsVal.vsig ⟨7, 8, 9, 10⟩) := by
  constructor
  · have h := (cleanup_removes_exactly_old 100 50 [(5, ⟨1, 2, 3, 4⟩), (200, ⟨7, 8, 9, 10⟩)]
      (by decide) (by decide) (5, ⟨1, 2, 3, 4⟩) (by decide)).1
    rw [show ((5 : Nat), (⟨1, 2, 3, 4⟩ : CRecoveredSig)).2.id = 2 from rfl] at h
    rw [h]
    decide
  · have h := (cleanup_removes_exactly_old 100 50 [(5, ⟨1, 2, 3, 4⟩), (200, ⟨7, 8, 9, 10⟩)]
      (by decide) (by decide) (200, ⟨7, 8, 9, 10⟩) (by decide)).1
    rw [show ((200 : Nat), (⟨7, 8, 9, 10⟩ : CRecoveredSig)).2.id = 8 from rfl] at h
    rw [h]
    decide

end OwleeModel

namespace OwleeModel

/-!
## Signing manager (`src/llmq/quorums_signing.cpp`, `CSigningManager`)

`ProcessRecoveredSig` is embedded as a state transition on the database plus
the pending-reconstructed map, parameterised by a chain oracle (block lookup
and active-chain validity are external collaborators) and the masternode
flag; peer-manager side effects (misbehaving scores, relaying, listener
notification) become an event list.
-/

/-- The chain facts `ProcessRecoveredSig` consults: height of the block a
message hash names (`LookupBlockIndex`), whether that block is contained in
the active chain and valid (`ActiveChain().Contains && IsValid`), and the
`SIGN_HEIGHT_LOOKBACK` modulus. -/
structure ChainModel where
  blockHeight : Nat → Option Nat
  activeValid : Nat → Bool
  lookback : Nat

/-- Externally visible side effects of the signing manager. -/
inductive SigEvent where
  /-- `peerman.Misbehaving(peer, score, ...)`. -/
  | misbehaving (node : Int) (score : Nat)
  /-- The `LogPrintf` of a conflicting recovered signature for an id. -/
  | conflictLogged (id : Nat)
  /-- `peerman.RelayRecoveredSig(hash)`. -/
  | relayed (r : CRecoveredSig)
  /-- The `HandleNewRecoveredSig` listener loop for an accepted signature. -/
  | notifiedListeners (r : CRecoveredSig)
  /-- A `ProcessRecoveredSig(nodeId, recSig)` invocation (acceptance step). -/
  | acceptCall (node : Int) (r : CRecoveredSig)
  /-- `quorumSigSharesManager->ForceReAnnouncement`. -/
  | reAnnounced (quorumHash id msgHash : Nat)
  /-- `quorumSigSharesManager->AsyncSign(quorum, id, msgHash)`. -/
  | asyncSignCall (quorumHash id msgHash : Nat)
deriving DecidableEq

/-- Signing-manager state touched by `ProcessRecoveredSig`: the
recovered-signature database and `pendingReconstructedRecoveredSigs`
(keyed by content hash, i.e. by the record itself). -/
structure SigningState where
  db : RecSigsDb
  pendingReconstructed : List CRecoveredSig
deriving DecidableEq

/-- `CSigningManager::ProcessRecoveredSig(nodeId, recoveredSig)` (signature
already verified).  Steps: (1) the referenced block must exist, have height
divisible by `SIGN_HEIGHT_LOOKBACK` and be valid on the active chain, else
Misbehaving(10); (2) duplicate-by-content-hash is a no-op; (3) an existing
record for the same id with a different sign hash is logged as a conflict
and rejected; with the same sign hash the sig is already known and nothing
is written; (4) otherwise the sig is persisted, removed from the
pending-reconstructed map, relayed in masternode mode, and listeners are
notified. -/
def ProcessRecoveredSig (mn : Bool) (chain : ChainModel) (now : Nat) (node : Int)
    (r : CRecoveredSig) (st : SigningState) : SigningState × List SigEvent :=
  match chain.blockHeight r.msgHash with
  | none => (st, [.misbehaving node 10])
  | some height =>
    if height % chain.lookback ≠ 0 then (st, [.misbehaving node 10])
    else if ¬chain.activeValid r.msgHash then (st, [.misbehaving node 10])
    else
      let hashOut := HasRecoveredSigForHash st.db r
      if hashOut.1 then ({ st with db := hashOut.2 }, [])
      else
        let idOut := HasRecoveredSigForId hashOut.2 r.id
        let writeCont : RecSigsDb → SigningState × List SigEvent := fun db2 =>
          let db3 := WriteRecoveredSig now r db2
          ({ db := db3,
             pendingReconstructed := st.pendingReconstructed.filter (fun x => x ≠ r) },
           (if mn then [.relayed r] else []) ++ [.notifiedListeners r])
        if idOut.1 then
          match GetRecoveredSigById idOut.2 r.id with
          | some other =>
            if signHashOf r ≠ signHashOf other then
              ({ st with db := idOut.2 }, [.conflictLogged r.id])
            else
              ({ st with db := idOut.2 }, [])
          | none => writeCont idOut.2
        else writeCont idOut.2

end OwleeModel

namespace OwleeModel

theorem hasForHash_store (db : RecSigsDb) (h : CRecoveredSig) :
    (HasRecoveredSigForHash db h).2.store = db.store := by
  rw [HasRecoveredSigForHash]
  cases alookup db.hasSigForHashCache h <;> rfl

theorem hasForHash_idCache (db : RecSigsDb) (h : CRecoveredSig) :
    (HasRecoveredSigForHash db h).2.hasSigForIdCache = db.hasSigForIdCache := by
  rw [HasRecoveredSigForHash]
  cases alookup db.hasSigForHashCache h <;> rfl

theorem hasForId_store (db : RecSigsDb) (id : Nat) :
    (HasRecoveredSigForId db id).2.store = db.store := by
  rw [HasRecoveredSigForId]
  cases alookup db.hasSigForIdCache id <;> rfl

/-- Claim C1: a verified recovered signature for an id that already has a
stored record with a different message hash (hence a different sign hash) is
rejected: nothing is written to the store, the stored record for the id is
unchanged, and the conflict is logged. -/
theorem processRecoveredSig_conflict (mn : Bool) (chain : ChainModel) (now : Nat)
    (node : Int) (st : SigningState) (orig newSig : CRecoveredSig) (height : Nat)
    (hBlk : chain.blockHeight newSig.msgHash = some height)
    (hMod : height % chain.lookback = 0)
    (hAct : chain.activeValid newSig.msgHash = true)
    (hNotHash : (HasRecoveredSigForHash st.db newSig).1 = false)
    (hStored : alookup st.db.store (.rsR newSig.id) = some (.vsig orig))
    (hIdCache : alookup st.db.hasSigForIdCache newSig.id ≠ some false)
    (hDiff : orig.msgHash ≠ newSig.msgHash) :
    (ProcessRecoveredSig mn chain now node newSig st).1.db.store = st.db.store ∧
    GetRecoveredSigById (ProcessRecoveredSig mn chain now node newSig st).1.db newSig.id
      = some orig ∧
    SigEvent.conflictLogged newSig.id ∈ (ProcessRecoveredSig mn chain now node newSig st).2 := by
  have hsH : (HasRecoveredSigForHash st.db newSig).2.store = st.db.store :=
    hasForHash_store _ _
  have hsHid : (HasRecoveredSigForHash st.db newSig).2.hasSigForIdCache
      = st.db.hasSigForIdCache := hasForHash_idCache _ _
  have hidout1 : (HasRecoveredSigForId (HasRecoveredSigForHash st.db newSig).2 newSig.id).1
      = true := by
    rw [HasRecoveredSigForId, hsHid, hsH]
    cases hc : alookup st.db.hasSigForIdCache newSig.id with
    | none => simp [hStored]
    | some b =>
      cases b with
      | false => exact absurd hc hIdCache
      | true => rfl
  have hidout2s : (HasRecoveredSigForId (HasRecoveredSigForHash st.db newSig).2
      newSig.id).2.store = st.db.store := by
    rw [hasForId_store, hsH]
  have hget : GetRecoveredSigById (HasRecoveredSigForId (HasRecoveredSigForHash st.db newSig).2
      newSig.id).2 newSig.id = some orig := by
    rw [GetRecoveredSigById, ReadRecoveredSig, hidout2s, hStored]
  have hsh : signHashOf newSig ≠ signHashOf orig :=
    fun h => hDiff (congrArg (fun p => p.2.2) h).symm
  simp only [ProcessRecoveredSig, hBlk]
  rw [if_neg (by simp [hMod])]
  rw [if_neg (by simp [hAct])]
  rw [hNotHash]
  simp only [Bool.false_eq_true, if_false]
  rw [hidout1]
  simp only [if_true]
  rw [hget]
  dsimp only
  rw [if_pos hsh]
  exact ⟨hidout2s, hget, by simp⟩
end OwleeModel

namespace OwleeModel

/-- Concrete chain oracle for witnesses: every message hash names a valid
block at height 0 and `SIGN_HEIGHT_LOOKBACK` is 5. -/
def witChain : ChainModel := ⟨fun _ => some 0, fun _ => true, 5⟩

/-- Signing state holding one recovered signature (quorum 1, id 2,
message hash 3). -/
def c1st : SigningState := ⟨WriteRecoveredSig 50 ⟨1, 2, 3, 4⟩ emptyRsDb, []⟩

/-- Claim C1, witness: a second verified signature for id 2 with message
hash 9 is rejected, the stored record is unchanged and the conflict is
logged. -/
theorem processRecoveredSig_conflict_witness :
    (ProcessRecoveredSig false witChain 60 7 ⟨1, 2, 9, 4⟩ c1st).1.db.store = c1st.db.store ∧
    GetRecoveredSigById (ProcessRecoveredSig false witChain 60 7 ⟨1, 2, 9, 4⟩ c1st).1.db 2
      = some ⟨1, 2, 3, 4⟩ ∧
    SigEvent.conflictLogged 2 ∈ (ProcessRecoveredSig false witChain 60 7 ⟨1, 2, 9, 4⟩ c1st).2 :=
  processRecoveredSig_conflict false witChain 60 7 c1st ⟨1, 2, 3, 4⟩ ⟨1, 2, 9, 4⟩ 0
    rfl (by decide) rfl (by decide) (by decide) (by decide) (by decide)

end OwleeModel

namespace OwleeModel

/-- The quorum data `AsyncSignIfMember` consults. -/
structure QuorumM where
  quorumHash : Nat
  quorumPublicKey : Nat
  validMember : Nat → Bool

/-- Environment of `AsyncSignIfMember`: the masternode flag, the active
masternode's proTxHash (`none` models `IsNull()`), and the two quorum
resolution paths (`SelectQuorumForSigning` for a null quorum hash,
`quorumManager->GetQuorum` otherwise) — both external collaborators. -/
structure SignEnv where
  masternodeMode : Bool
  proTxHash : Option Nat
  selectQuorumForSigning : Nat → Option QuorumM
  getQuorum : Nat → Option QuorumM

/-- `CSigningManager::AsyncSignIfMember(id, msgHash, quorumHash, allowReSign)`:
bail out unless an active masternode; resolve the signing quorum
(deterministic selection when the explicit quorum hash is null, modelled as
0); require local membership; an existing vote for the id with a different
message hash aborts, with the same message hash it aborts unless re-signing
was requested; an already-present recovered signature returns success
without dispatching; otherwise the vote is recorded (only if not already
voted) and the share-signing dispatch (`AsyncSign`, plus
`ForceReAnnouncement` when re-signing) is invoked.  Returns
(result, database, events). -/
def AsyncSignIfMember (env : SignEnv) (now : Nat) (id msgHash quorumHash : Nat)
    (allowReSign : Bool) (db : RecSigsDb) : Bool × RecSigsDb × List SigEvent :=
  if ¬env.masternodeMode ∨ env.proTxHash = none then (false, db, [])
  else
    let quorumOpt := if quorumHash = 0 then env.selectQuorumForSigning id
      else env.getQuorum quorumHash
    match quorumOpt with
    | none => (false, db, [])
    | some quorum =>
      if ¬quorum.validMember (env.proTxHash.getD 0) then (false, db, [])
      else
        let hasVoted := HasVotedOnId db id
        let afterVoteCheck : Unit → Bool × RecSigsDb × List SigEvent := fun _ =>
          let idOut := HasRecoveredSigForId db id
          if idOut.1 then (true, idOut.2, [])
          else
            let db2 := if ¬hasVoted then WriteVoteForId now id msgHash idOut.2 else idOut.2
            (true, db2,
              (if allowReSign then [.reAnnounced quorum.quorumHash id msgHash] else [])
                ++ [.asyncSignCall quorum.quorumHash id msgHash])
        if hasVoted then
          let prevMsgHash := match GetVoteForId db id with
            | some m => m
            | none => 0
          if msgHash ≠ prevMsgHash then (false, db, [])
          else if allowReSign then afterVoteCheck ()
          else (false, db, [])
        else afterVoteCheck ()

/-- Claim C6: calling `AsyncSignIfMember` twice with the same id and message
hash and no re-sign flag, where the first call records a vote and dispatches
the share signing, makes the second call a no-op: same database (no second
vote), no events (in particular no second `AsyncSign` dispatch), and a
`false` result. -/
theorem asyncSignIfMember_idempotent (env : SignEnv) (now1 now2 : Nat)
    (id msgHash quorumHash proTx : Nat) (quorum : QuorumM) (db : RecSigsDb)
    (hm : env.masternodeMode = true)
    (hp : env.proTxHash = some proTx)
    (hq : (if quorumHash = 0 then env.selectQuorumForSigning id
        else env.getQuorum quorumHash) = some quorum)
    (hvm : quorum.validMember proTx = true)
    (hnv : HasVotedOnId db id = false)
    (hnr : (HasRecoveredSigForId db id).1 = false) :
    GetVoteForId (AsyncSignIfMember env now1 id msgHash quorumHash false db).2.1 id
      = some msgHash ∧
    SigEvent.asyncSignCall quorum.quorumHash id msgHash
      ∈ (AsyncSignIfMember env now1 id msgHash quorumHash false db).2.2 ∧
    (AsyncSignIfMember env now2 id msgHash quorumHash false
        (AsyncSignIfMember env now1 id msgHash quorumHash false db).2.1).2.1
      = (AsyncSignIfMember env now1 id msgHash quorumHash false db).2.1 ∧
    (AsyncSignIfMember env now2 id msgHash quorumHash false
        (AsyncSignIfMember env now1 id msgHash quorumHash false db).2.1).2.2 = [] ∧
    (AsyncSignIfMember env now2 id msgHash quorumHash false
        (AsyncSignIfMember env now1 id msgHash quorumHash false db).2.1).1 = false := by
  have hguard : ¬(¬env.masternodeMode ∨ env.proTxHash = none) := by
    simp [hm, hp]
  have hvm2 : ¬¬quorum.validMember (env.proTxHash.getD 0) = true := by
    rw [hp]
    simp [hvm]
  have hfirst : AsyncSignIfMember env now1 id msgHash quorumHash false db
      = (true, WriteVoteForId now1 id msgHash (HasRecoveredSigForId db id).2,
         [SigEvent.asyncSignCall quorum.quorumHash id msgHash]) := by
    rw [AsyncSignIfMember]
    rw [if_neg hguard, hq]
    dsimp only
    rw [if_neg (by simpa using hvm2), hnv]
    simp only [Bool.false_eq_true, if_false, hnr, not_false_eq_true, if_true]
    rfl
  rw [hfirst]
  have hstore1 : (WriteVoteForId now1 id msgHash (HasRecoveredSigForId db id).2).store
      = applyBatch db.store
        [BatchOp.bput (RsKey.rsV id) (RsVal.vnum msgHash),
         BatchOp.bput (RsKey.rsVT (now1 % 4294967296) id) (RsVal.vnum 1)] := by
    rw [WriteVoteForId, hasForId_store]
  have hvote : GetVoteForId (WriteVoteForId now1 id msgHash (HasRecoveredSigForId db id).2) id
      = some msgHash := by
    rw [GetVoteForId, hstore1]
    simp only [applyBatch, List.foldl_cons, List.foldl_nil]
    rw [alookup_aput_eq]
    rw [if_neg (fun he => RsKey.noConfusion he)]
    rw [alookup_aput_self]
  have hvoted2 : HasVotedOnId (WriteVoteForId now1 id msgHash (HasRecoveredSigForId db id).2) id
      = true := by
    rw [HasVotedOnId, hstore1]
    simp only [applyBatch, List.foldl_cons, List.foldl_nil]
    rw [alookup_aput_eq, if_neg (fun he => RsKey.noConfusion he), alookup_aput_self]
    rfl
  refine ⟨hvote, by simp, ?_⟩
  rw [AsyncSignIfMember]
  simp [hq, hp, hvm, hvoted2, hvote, hguard]

end OwleeModel

namespace OwleeModel

/-- Environment for the C6 witness: active masternode 11, a single signing
quorum (hash 21) in which 11 is a valid member. -/
def c6env : SignEnv :=
  ⟨true, some 11, fun _ => some ⟨21, 99, fun p => p == 11⟩, fun _ => none⟩

/-- Claim C6, witness: on concrete inputs the first call votes and
dispatches, the second call changes nothing, emits no events and returns
false. -/
theorem asyncSignIfMember_idempotent_witness :
    GetVoteForId (AsyncSignIfMember c6env 40 5 6 0 false emptyRsDb).2.1 5 = some 6 ∧
    SigEvent.asyncSignCall 21 5 6 ∈ (AsyncSignIfMember c6env 40 5 6 0 false emptyRsDb).2.2 ∧
    (AsyncSignIfMember c6env 41 5 6 0 false
        (AsyncSignIfMember c6env 40 5 6 0 false emptyRsDb).2.1).2.1
      = (AsyncSignIfMember c6env 40 5 6 0 false emptyRsDb).2.1 ∧
    (AsyncSignIfMember c6env 41 5 6 0 false
        (AsyncSignIfMember c6env 40 5 6 0 false emptyRsDb).2.1).2.2 = [] ∧
    (AsyncSignIfMember c6env 41 5 6 0 false
        (AsyncSignIfMember c6env 40 5 6 0 false emptyRsDb).2.1).1 = false :=
  asyncSignIfMember_idempotent c6env 40 41 5 6 0 11 ⟨21, 99, fun p => p == 11⟩ emptyRsDb
    rfl rfl rfl (by decide) rfl (by decide)

end OwleeModel

namespace OwleeModel

/-!
## DKG session manager (`src/llmq/quorums_dkgsessionmgr.cpp`)

The persistent store of verified per-member data holds verification vectors
under `("qdkg_V", quorumHash, proTxHash)` and secret-key contributions under
`("qdkg_S", quorumHash, proTxHash)`; both are modelled as association lists
keyed by the `(quorumHash, proTxHash)` pair, with opaque `Nat` payloads.  A
`CBLSSecretKey` local that a failed `Read` leaves default-constructed is
modelled as `Option Nat` with `none` for the invalid default key. -/
structure DkgDb where
  vvec : List ((Nat × Nat) × Nat)
  skContrib : List ((Nat × Nat) × Nat)

/-- `contributionsCache`: `(quorumHash, proTxHash)` to
`(entryTime, vvec, skContribution)`. -/
abbrev ContribCache := List ((Nat × Nat) × (Nat × Nat × Option Nat))

/-- The member loop of `CDKGSessionManager::GetVerifiedContributions`,
carried over the (member, valid-bit) pairs with the running member index:
skip invalid members; serve from the contributions cache when possible; on a
cache miss read the verification vector (returning failure when absent) and
the secret-key contribution (its read result is ignored — a missing share
leaves the default-constructed key), then cache the entry.  Returns the
(index, vvec, share) triples (the three parallel result vectors) and the
updated cache. -/
def getVerifiedContributionsLoop (now quorumHash : Nat) (db : DkgDb) :
    List (Nat × Bool) → Nat → ContribCache →
      Option (List (Nat × Nat × Option Nat)) × ContribCache
  | [], _, cache => (some [], cache)
  | (proTx, valid) :: rest, i, cache =>
    if valid then
      match alookup cache (quorumHash, proTx) with
      | some entry =>
        match getVerifiedContributionsLoop now quorumHash db rest (i + 1) cache with
        | (some l, c2) => (some ((i, entry.2.1, entry.2.2) :: l), c2)
        | (none, c2) => (none, c2)
      | none =>
        match alookup db.vvec (quorumHash, proTx) with
        | none => (none, cache)
        | some vv =>
          let sk := alookup db.skContrib (quorumHash, proTx)
          let cache2 := aput cache (quorumHash, proTx) (now, vv, sk)
          match getVerifiedContributionsLoop now quorumHash db rest (i + 1) cache2 with
          | (some l, c2) => (some ((i, vv, sk) :: l), c2)
          | (none, c2) => (none, c2)
    else getVerifiedContributionsLoop now quorumHash db rest (i + 1) cache

/-- `CDKGSessionManager::GetVerifiedContributions(pQuorumBaseBlockIndex,
validMembers, ...)`: iterate the quorum members (paired with their valid
bits) from index 0. -/
def GetVerifiedContributions (now quorumHash : Nat) (db : DkgDb) (cache : ContribCache)
    (members : List Nat) (validMembers : List Bool) :
    Option (List (Nat × Nat × Option Nat)) × ContribCache :=
  getVerifiedContributionsLoop now quorumHash db (members.zip validMembers) 0 cache

end OwleeModel

namespace OwleeModel

theorem getVerifiedContributionsLoop_spec (now quorumHash : Nat) (db : DkgDb)
    (mv : List (Nat × Bool)) :
    ∀ (i : Nat) (cache : ContribCache),
      ((getVerifiedContributionsLoop now quorumHash db mv i cache).1 = none ↔
        ∃ p ∈ mv, p.2 = true ∧ alookup cache (quorumHash, p.1) = none ∧
          alookup db.vvec (quorumHash, p.1) = none) ∧
      (∀ l, (getVerifiedContributionsLoop now quorumHash db mv i cache).1 = some l →
        l.map (fun t => t.1)
          = ((List.enumFrom i mv).filter (fun x => x.2.2)).map (fun x => x.1)) := by
  induction mv with
  | nil =>
    intro i cache
    constructor
    · simp [getVerifiedContributionsLoop]
    · intro l hl
      simp only [getVerifiedContributionsLoop] at hl
      injection hl with hl
      rw [← hl]
      rfl
  | cons p rest ih =>
    obtain ⟨proTx, valid⟩ := p
    intro i cache
    cases valid with
    | false =>
      have hloop : getVerifiedContributionsLoop now quorumHash db
          ((proTx, false) :: rest) i cache
          = getVerifiedContributionsLoop now quorumHash db rest (i + 1) cache := by
        simp [getVerifiedContributionsLoop]
      obtain ⟨ih1, ih2⟩ := ih (i + 1) cache
      rw [hloop]
      constructor
      · rw [ih1]
        constructor
        · rintro ⟨q, hq, hcond⟩
          exact ⟨q, List.mem_cons_of_mem _ hq, hcond⟩
        · rintro ⟨q, hq, hcond⟩
          rcases List.mem_cons.1 hq with heq | hmem
          · rw [heq] at hcond
            exact absurd hcond.1 (by simp)
          · exact ⟨q, hmem, hcond⟩
      · intro l hl
        rw [ih2 l hl]
        rw [List.enumFrom, List.filter_cons]
        simp
    | true =>
      cases hc : alookup cache (quorumHash, proTx) with
      | some entry =>
        obtain ⟨ih1, ih2⟩ := ih (i + 1) cache
        rcases hrec : getVerifiedContributionsLoop now quorumHash db rest (i + 1) cache
          with ⟨res, c2⟩
        rw [hrec] at ih1 ih2
        cases res with
        | none =>
          have hloop : getVerifiedContributionsLoop now quorumHash db
              ((proTx, true) :: rest) i cache = (none, c2) := by
            simp [getVerifiedContributionsLoop, hc, hrec]
          rw [hloop]
          simp only at ih1 ih2
          constructor
          · constructor
            · intro _
              obtain ⟨q, hq, hcond⟩ := ih1.1 trivial
              exact ⟨q, List.mem_cons_of_mem _ hq, hcond⟩
            · intro _
              rfl
          · intro l hl
            exact absurd hl (by simp)
        | some l0 =>
          have hloop : getVerifiedContributionsLoop now quorumHash db
              ((proTx, true) :: rest) i cache
              = (some ((i, entry.2.1, entry.2.2) :: l0), c2) := by
            simp [getVerifiedContributionsLoop, hc, hrec]
          rw [hloop]
          simp only at ih1 ih2
          constructor
          · constructor
            · intro h
              exact absurd h (by simp)
            · rintro ⟨q, hq, hqt, hcn, hvn⟩
              rcases List.mem_cons.1 hq with heq | hmem
              · rw [heq] at hcn
                rw [hc] at hcn
                cases hcn
              · exact absurd (ih1.2 ⟨q, hmem, hqt, hcn, hvn⟩) (by simp)
          · intro l hl
            injection hl with hl
            rw [← hl]
            rw [List.enumFrom, List.filter_cons]
            simp only [List.map_cons]
            rw [ih2 l0 rfl]
            simp
      | none =>
        cases hvv : alookup db.vvec (quorumHash, proTx) with
        | none =>
          have hloop : getVerifiedContributionsLoop now quorumHash db
              ((proTx, true) :: rest) i cache = (none, cache) := by
            simp [getVerifiedContributionsLoop, hc, hvv]
          rw [hloop]
          constructor
          · constructor
            · intro _
              exact ⟨(proTx, true), List.mem_cons_self _ _, rfl, hc, hvv⟩
            · intro _
              rfl
          · intro l hl
            exact absurd hl (by simp)
        | some vv =>
          obtain ⟨ih1, ih2⟩ := ih (i + 1)
            (aput cache (quorumHash, proTx)
              (now, vv, alookup db.skContrib (quorumHash, proTx)))
          rcases hrec : getVerifiedContributionsLoop now quorumHash db rest (i + 1)
              (aput cache (quorumHash, proTx)
                (now, vv, alookup db.skContrib (quorumHash, proTx)))
            with ⟨res, c2⟩
          rw [hrec] at ih1 ih2
          have htransfer : ∀ q ∈ rest, (q.2 = true ∧
              alookup (aput cache (quorumHash, proTx)
                (now, vv, alookup db.skContrib (quorumHash, proTx)))
                  (quorumHash, q.1) = none ∧
              alookup db.vvec (quorumHash, q.1) = none) ↔
              (q.2 = true ∧ alookup cache (quorumHash, q.1) = none ∧
                alookup db.vvec (quorumHash, q.1) = none) := by
            intro q _
            by_cases hk : (quorumHash, q.1) = (quorumHash, proTx)
            · rw [hk, alookup_aput_self, hvv]
              constructor
              · rintro ⟨_, h, _⟩
                cases h
              · rintro ⟨_, _, h⟩
                cases h
            · rw [alookup_aput_eq, if_neg hk]
          cases res with
          | none =>
            have hloop : getVerifiedContributionsLoop now quorumHash db
                ((proTx, true) :: rest) i cache = (none, c2) := by
              simp [getVerifiedContributionsLoop, hc, hvv, hrec]
            rw [hloop]
            simp only at ih1 ih2
            constructor
            · constructor
              · intro _
                obtain ⟨q, hq, hcond⟩ := ih1.1 trivial
                exact ⟨q, List.mem_cons_of_mem _ hq, (htransfer q hq).1 hcond⟩
              · intro _
                rfl
            · intro l hl
              exact absurd hl (by simp)
          | some l0 =>
            have hloop : getVerifiedContributionsLoop now quorumHash db
                ((proTx, true) :: rest) i cache
                = (some ((i, vv, alookup db.skContrib (quorumHash, proTx)) :: l0), c2) := by
              simp [getVerifiedContributionsLoop, hc, hvv, hrec]
            rw [hloop]
            simp only at ih1 ih2
            constructor
            · constructor
              · intro h
                exact absurd h (by simp)
              · rintro ⟨q, hq, hqt, hcn, hvn⟩
                rcases List.mem_cons.1 hq with heq | hmem
                · rw [heq] at hvn
                  rw [hvv] at hvn
                  cases hvn
                · exact absurd (ih1.2 ⟨q, hmem, (htransfer q hmem).2 ⟨hqt, hcn, hvn⟩⟩)
                    (by simp)
            · intro l hl
              injection hl with hl
              rw [← hl]
              rw [List.enumFrom, List.filter_cons]
              simp only [List.map_cons]
              rw [ih2 l0 rfl]
              simp

end OwleeModel

namespace OwleeModel

/-- DKG store holding a verification vector for member 7 of quorum 1 but no
secret-key contribution for it. -/
def c9db : DkgDb := ⟨[((1, 7), 5)], []⟩

/-- Claim C9, counterexample: member 7 is valid and its persisted secret-key
share is missing from the store, yet `GetVerifiedContributions` SUCCEEDS,
returning the default-constructed (invalid) key as the share — the
secret-key read result is ignored; only a missing verification vector causes
failure. -/
theorem getVerifiedContributions_missing_share_succeeds :
    alookup c9db.skContrib (1, 7) = none ∧
    (GetVerifiedContributions 0 1 c9db [] [7] [true]).1 = some [(0, 5, none)] := by
  decide

/-- Claim C9 (amended): `GetVerifiedContributions` returns failure exactly
when some valid member's verification vector is absent from both the
contributions cache and the store; a missing secret-key share does not cause
failure (the share stays the default-constructed invalid key); on success
the returned member indexes are exactly the positions marked valid in the
bitset. -/
theorem getVerifiedContributions_spec (now quorumHash : Nat) (db : DkgDb)
    (cache : ContribCache) (members : List Nat) (validMembers : List Bool) :
    ((GetVerifiedContributions now quorumHash db cache members validMembers).1 = none ↔
      ∃ p ∈ members.zip validMembers, p.2 = true ∧
        alookup cache (quorumHash, p.1) = none ∧
        alookup db.vvec (quorumHash, p.1) = none) ∧
    (∀ l, (GetVerifiedContributions now quorumHash db cache members validMembers).1
        = some l →
      l.map (fun t => t.1)
        = ((members.zip validMembers).enum.filter (fun x => x.2.2)).map (fun x => x.1)) := by
  have h := getVerifiedContributionsLoop_spec now quorumHash db (members.zip validMembers)
    0 cache
  refine ⟨h.1, fun l hl => ?_⟩
  rw [h.2 l hl]
  rfl

end OwleeModel

namespace OwleeModel

/-- The LRU caches agree with the store (the code invalidates them precisely
on write/remove, so this holds for every reachable database). -/
def CachesOk (db : RecSigsDb) : Prop :=
  (∀ i b, alookup db.hasSigForIdCache i = some b →
    b = (alookup db.store (.rsR i)).isSome) ∧
  (∀ sh b, alookup db.hasSigForSessionCache sh = some b →
    b = (alookup db.store (.rsS sh)).isSome) ∧
  (∀ h b, alookup db.hasSigForHashCache h = some b →
    b = (alookup db.store (.rsH h)).isSome)

/-- The database holds no trace of this record yet (fresh content hash and
fresh id). -/
def FreshIn (db : RecSigsDb) (c : CRecoveredSig) : Prop :=
  alookup db.store (.rsH c) = none ∧ alookup db.store (.rsR c.id) = none

/-- The chain checks of `ProcessRecoveredSig` pass for this record. -/
def ChainOk (chain : ChainModel) (c : CRecoveredSig) : Prop :=
  ∃ h, chain.blockHeight c.msgHash = some h ∧ h % chain.lookback = 0 ∧
    chain.activeValid c.msgHash = true

theorem cachesOk_hasForHash_false (db : RecSigsDb) (h : CRecoveredSig)
    (hco : CachesOk db) (hn : alookup db.store (.rsH h) = none) :
    (HasRecoveredSigForHash db h).1 = false := by
  rw [HasRecoveredSigForHash]
  cases hcc : alookup db.hasSigForHashCache h with
  | none => simp [hn]
  | some b =>
    have := hco.2.2 h b hcc
    rw [hn] at this
    simpa using this

theorem cachesOk_hasForId_false (db : RecSigsDb) (i : Nat)
    (hco : CachesOk db) (hn : alookup db.store (.rsR i) = none) :
    (HasRecoveredSigForId db i).1 = false := by
  rw [HasRecoveredSigForId]
  cases hcc : alookup db.hasSigForIdCache i with
  | none => simp [hn]
  | some b =>
    have := hco.1 i b hcc
    rw [hn] at this
    simpa using this

theorem cachesOk_hasForHash (db : RecSigsDb) (h : CRecoveredSig) (hco : CachesOk db) :
    CachesOk (HasRecoveredSigForHash db h).2 := by
  rw [HasRecoveredSigForHash]
  cases hcc : alookup db.hasSigForHashCache h with
  | some b => exact hco
  | none =>
    refine ⟨hco.1, hco.2.1, ?_⟩
    intro h2 b hb
    simp only at hb
    rw [alookup_aput_eq] at hb
    by_cases he : h2 = h
    · rw [if_pos he] at hb
      injection hb with hb
      rw [← hb, he]
    · rw [if_neg he] at hb
      exact hco.2.2 h2 b hb

theorem cachesOk_hasForId (db : RecSigsDb) (i : Nat) (hco : CachesOk db) :
    CachesOk (HasRecoveredSigForId db i).2 := by
  rw [HasRecoveredSigForId]
  cases hcc : alookup db.hasSigForIdCache i with
  | some b => exact hco
  | none =>
    refine ⟨?_, hco.2.1, hco.2.2⟩
    intro i2 b hb
    simp only at hb
    rw [alookup_aput_eq] at hb
    by_cases he : i2 = i
    · rw [if_pos he] at hb
      injection hb with hb
      rw [← hb, he]
    · rw [if_neg he] at hb
      exact hco.1 i2 b hb

theorem cachesOk_write (now : Nat) (r : CRecoveredSig) (db : RecSigsDb)
    (hco : CachesOk db) : CachesOk (WriteRecoveredSig now r db) := by
  have hidc : (WriteRecoveredSig now r db).hasSigForIdCache
      = aput db.hasSigForIdCache r.id true := rfl
  have hssc : (WriteRecoveredSig now r db).hasSigForSessionCache
      = aput db.hasSigForSessionCache (signHashOf r) true := rfl
  have hhhc : (WriteRecoveredSig now r db).hasSigForHashCache
      = aput db.hasSigForHashCache r true := rfl
  refine ⟨?_, ?_, ?_⟩
  · intro i b hb
    rw [hidc, alookup_aput_eq] at hb
    by_cases he : i = r.id
    · rw [if_pos he] at hb
      injection hb with hb
      rw [← hb, he, alookup_store_write]
      simp
    · rw [if_neg he] at hb
      rw [write_store_untouched now r db (.rsR i) (by simpa [keyId] using he)]
      exact hco.1 i b hb
  · intro sh b hb
    rw [hssc, alookup_aput_eq] at hb
    by_cases he : sh = signHashOf r
    · rw [if_pos he] at hb
      injection hb with hb
      rw [← hb, he, alookup_store_write]
      simp
    · rw [if_neg he] at hb
      rw [alookup_store_write]
      rw [if_neg (fun hx => RsKey.noConfusion hx),
        if_neg (fun hx => he (by injection hx)),
        if_neg (fun hx => RsKey.noConfusion hx),
        if_neg (fun hx => RsKey.noConfusion hx),
        if_neg (fun hx => RsKey.noConfusion hx)]
      exact hco.2.1 sh b hb
  · intro h b hb
    rw [hhhc, alookup_aput_eq] at hb
    by_cases he : h = r
    · rw [if_pos he] at hb
      injection hb with hb
      rw [← hb, he, alookup_store_write]
      simp
    · rw [if_neg he] at hb
      rw [alookup_store_write]
      rw [if_neg (fun hx => RsKey.noConfusion hx),
        if_neg (fun hx => RsKey.noConfusion hx),
        if_neg (fun hx => he (by injection hx)),
        if_neg (fun hx => RsKey.noConfusion hx),
        if_neg (fun hx => RsKey.noConfusion hx)]
      exact hco.2.2 h b hb

end OwleeModel

namespace OwleeModel

theorem write_store_congr (now : Nat) (c : CRecoveredSig) (d1 d2 : RecSigsDb)
    (hd : d1.store = d2.store) :
    (WriteRecoveredSig now c d1).store = (WriteRecoveredSig now c d2).store := by
  simp only [WriteRecoveredSig]
  rw [hd]

/-- Accepting a fresh, chain-valid recovered signature: the store effect is
exactly `WriteRecoveredSig`, cache consistency is preserved, and the emitted
events are the relay (in masternode mode) plus the listener notification. -/
theorem accept_step (mn : Bool) (chain : ChainModel) (now : Nat) (node : Int)
    (c : CRecoveredSig) (st : SigningState)
    (hco : CachesOk st.db) (hch : ChainOk chain c) (hfr : FreshIn st.db c) :
    (ProcessRecoveredSig mn chain now node c st).1.db.store
      = (WriteRecoveredSig now c st.db).store ∧
    CachesOk (ProcessRecoveredSig mn chain now node c st).1.db ∧
    (ProcessRecoveredSig mn chain now node c st).2
      = (if mn then [SigEvent.relayed c] else []) ++ [SigEvent.notifiedListeners c] := by
  obtain ⟨h, hblk, hmod, hact⟩ := hch
  have hH1 : (HasRecoveredSigForHash st.db c).1 = false :=
    cachesOk_hasForHash_false _ _ hco hfr.1
  have hdb1co : CachesOk (HasRecoveredSigForHash st.db c).2 := cachesOk_hasForHash _ _ hco
  have hdb1s : (HasRecoveredSigForHash st.db c).2.store = st.db.store := hasForHash_store _ _
  have hI1 : (HasRecoveredSigForId (HasRecoveredSigForHash st.db c).2 c.id).1 = false := by
    apply cachesOk_hasForId_false _ _ hdb1co
    rw [hdb1s]
    exact hfr.2
  have hdb2co : CachesOk (HasRecoveredSigForId (HasRecoveredSigForHash st.db c).2 c.id).2 :=
    cachesOk_hasForId _ _ hdb1co
  have hdb2s : (HasRecoveredSigForId (HasRecoveredSigForHash st.db c).2 c.id).2.store
      = st.db.store := by
    rw [hasForId_store, hdb1s]
  have hstep : ProcessRecoveredSig mn chain now node c st
      = (⟨WriteRecoveredSig now c
            (HasRecoveredSigForId (HasRecoveredSigForHash st.db c).2 c.id).2,
          st.pendingReconstructed.filter (fun x => x ≠ c)⟩,
         (if mn then [SigEvent.relayed c] else []) ++ [SigEvent.notifiedListeners c]) := by
    simp only [ProcessRecoveredSig, hblk]
    rw [if_neg (by simp [hmod])]
    rw [if_neg (by simp [hact])]
    rw [hH1]
    simp only [Bool.false_eq_true, if_false]
    rw [hI1]
    simp only [Bool.false_eq_true, if_false]
  rw [hstep]
  exact ⟨write_store_congr now c _ _ hdb2s, cachesOk_write now c _ hdb2co, rfl⟩

end OwleeModel

namespace OwleeModel

/-- Whether an origin ends up in `batchVerifier.badSources` for the round:
the push loop adds it on the first structurally invalid signature
(`!recSig->sig.Get().IsValid()`, breaking out so only the valid prefix is
pushed), and — modelled from the spec, `CBLSBatchVerifier` itself is not
under `src/` — batch verification flags every origin one of whose pushed
messages fails BLS verification against its quorum public key. -/
def badNode (sigValid : Nat → Bool) (blsValid : CRecoveredSig → Bool)
    (v : List CRecoveredSig) : Bool :=
  v.any (fun c => !(sigValid c.sig))
    || (v.takeWhile (fun c => sigValid c.sig)).any (fun c => !(blsValid c))

/-- The inner acceptance loop of `ProcessPendingRecoveredSigs` for one
(non-bad) origin: skip candidates whose hash was already processed this
round, otherwise record them as processed and hand them to
`ProcessRecoveredSig`.  Returns (state, events, processed set). -/
def processNodeSigs (mn : Bool) (chain : ChainModel) (now : Nat) (node : Int) :
    List CRecoveredSig → SigningState → List CRecoveredSig →
      SigningState × List SigEvent × List CRecoveredSig
  | [], st, ps => (st, [], ps)
  | c :: rest, st, ps =>
    if c ∈ ps then processNodeSigs mn chain now node rest st ps
    else
      let out := ProcessRecoveredSig mn chain now node c st
      let tail := processNodeSigs mn chain now node rest out.1 (ps ++ [c])
      (tail.1, SigEvent.acceptCall node c :: out.2 ++ tail.2.1, tail.2.2)

/-- The verification-and-acceptance phase of
`CSigningManager::ProcessPendingRecoveredSigs` over the collected
per-origin candidate lists: origins in `badSources` get `Misbehaving(100)`
and all their candidates for the round are skipped; every other origin's
candidates are deduplicated against the round's `processed` set and
individually passed to `ProcessRecoveredSig`.  (The `unordered_map`
iteration order is abstracted by the list order.) -/
def processRound (mn : Bool) (chain : ChainModel) (now : Nat)
    (sigValid : Nat → Bool) (blsValid : CRecoveredSig → Bool) :
    List (Int × List CRecoveredSig) → SigningState → List CRecoveredSig →
      SigningState × List SigEvent × List CRecoveredSig
  | [], st, ps => (st, [], ps)
  | (node, v) :: rest, st, ps =>
    if badNode sigValid blsValid v then
      let tail := processRound mn chain now sigValid blsValid rest st ps
      (tail.1, SigEvent.misbehaving node 100 :: tail.2.1, tail.2.2)
    else
      let out := processNodeSigs mn chain now node v st ps
      let tail := processRound mn chain now sigValid blsValid rest out.1 out.2.2
      (tail.1, out.2.1 ++ tail.2.1, tail.2.2)

end OwleeModel

namespace OwleeModel

theorem processNodeSigs_spec (mn : Bool) (chain : ChainModel) (now : Nat) (node : Int)
    (v : List CRecoveredSig) :
    ∀ (st : SigningState) (ps : List CRecoveredSig),
      CachesOk st.db →
      (∀ c ∈ v, ChainOk chain c) →
      (∀ c ∈ v, c ∉ ps → FreshIn st.db c) →
      (v.map (fun c => c.id)).Nodup →
      CachesOk (processNodeSigs mn chain now node v st ps).1.db ∧
      (∀ c ∈ v, c ∉ ps →
        alookup (processNodeSigs mn chain now node v st ps).1.db.store (.rsH c)
          = some (.vnum c.id) ∧
        SigEvent.acceptCall node c ∈ (processNodeSigs mn chain now node v st ps).2.1) ∧
      (∀ x, keyId x ∉ v.map (fun c => c.id) →
        alookup (processNodeSigs mn chain now node v st ps).1.db.store x
          = alookup st.db.store x) ∧
      (∀ n s, SigEvent.misbehaving n s ∉ (processNodeSigs mn chain now node v st ps).2.1) ∧
      (∀ c, c ∈ (processNodeSigs mn chain now node v st ps).2.2 → c ∈ ps ∨ c ∈ v) ∧
      (∀ n c, SigEvent.acceptCall n c ∈ (processNodeSigs mn chain now node v st ps).2.1 →
        n = node ∧ c ∈ v) := by
  induction v with
  | nil =>
    intro st ps hco _ _ _
    refine ⟨hco, ?_, ?_, ?_, ?_, ?_⟩
    · intro c hc
      cases hc
    · intro x _
      rfl
    · intro n s hmem
      cases hmem
    · intro c hc
      exact Or.inl hc
    · intro n c hmem
      cases hmem
  | cons c rest ih =>
    intro st ps hco hch hfr hnd
    simp only [List.map_cons, List.nodup_cons] at hnd
    by_cases hcp : c ∈ ps
    · have hloop : processNodeSigs mn chain now node (c :: rest) st ps
          = processNodeSigs mn chain now node rest st ps := by
        simp [processNodeSigs, hcp]
      rw [hloop]
      obtain ⟨ih1, ih2, ih3, ih4, ih5, ih6⟩ := ih st ps hco
        (fun c1 hc1 => hch c1 (List.mem_cons_of_mem _ hc1))
        (fun c1 hc1 hn1 => hfr c1 (List.mem_cons_of_mem _ hc1) hn1) hnd.2
      refine ⟨ih1, ?_, ?_, ih4, ?_, ?_⟩
      · intro c1 hc1 hn1
        rcases List.mem_cons.1 hc1 with heq | hmem
        · rw [heq] at hn1
          exact absurd hcp hn1
        · exact ih2 c1 hmem hn1
      · intro x hx
        exact ih3 x (fun hm => hx (List.mem_cons_of_mem _ hm))
      · intro c1 hc1
        rcases ih5 c1 hc1 with hm | hm
        · exact Or.inl hm
        · exact Or.inr (List.mem_cons_of_mem _ hm)
      · intro n c1 hmem
        obtain ⟨hn, hc1⟩ := ih6 n c1 hmem
        exact ⟨hn, List.mem_cons_of_mem _ hc1⟩
    · have hchc : ChainOk chain c := hch c (List.mem_cons_self _ _)
      have hfrc : FreshIn st.db c := hfr c (List.mem_cons_self _ _) hcp
      obtain ⟨hst, hcoW, hev⟩ := accept_step mn chain now node c st hco hchc hfrc
      have hloop : processNodeSigs mn chain now node (c :: rest) st ps
          = ((processNodeSigs mn chain now node rest
                (ProcessRecoveredSig mn chain now node c st).1 (ps ++ [c])).1,
             SigEvent.acceptCall node c :: (ProcessRecoveredSig mn chain now node c st).2
               ++ (processNodeSigs mn chain now node rest
                (ProcessRecoveredSig mn chain now node c st).1 (ps ++ [c])).2.1,
             (processNodeSigs mn chain now node rest
                (ProcessRecoveredSig mn chain now node c st).1 (ps ++ [c])).2.2) := by
        simp [processNodeSigs, hcp]
      rw [hloop]
      obtain ⟨ih1, ih2, ih3, ih4, ih5, ih6⟩ := ih
        (ProcessRecoveredSig mn chain now node c st).1 (ps ++ [c]) hcoW
        (fun c1 hc1 => hch c1 (List.mem_cons_of_mem _ hc1))
        (by
          intro c1 hc1 hn1
          simp only [List.mem_append, List.mem_singleton] at hn1
          push_neg at hn1
          have hfr1 := hfr c1 (List.mem_cons_of_mem _ hc1) hn1.1
          have hne : c1.id ≠ c.id := by
            intro he
            exact hnd.1 (he ▸ List.mem_map_of_mem _ hc1)
          constructor
          · rw [hst, write_store_untouched now c st.db (.rsH c1) (by simpa [keyId] using hne)]
            exact hfr1.1
          · rw [hst, write_store_untouched now c st.db (.rsR c1.id) (by simpa [keyId] using hne)]
            exact hfr1.2)
        hnd.2
      refine ⟨ih1, ?_, ?_, ?_, ?_, ?_⟩
      · intro c1 hc1 hn1
        rcases List.mem_cons.1 hc1 with heq | hmem
        · subst heq
          have hxnotin : keyId (RsKey.rsH c1) ∉ rest.map (fun c => c.id) := by
            intro hm
            exact hnd.1 (by simpa [keyId] using hm)
          constructor
          · rw [ih3 (.rsH c1) hxnotin, hst, alookup_store_write]
            simp
          · simp
        · have hne1 : c1 ≠ c := by
            intro he
            apply hnd.1
            rw [← he]
            exact List.mem_map_of_mem _ hmem
          have := ih2 c1 hmem (by
            simp only [List.mem_append, List.mem_singleton]
            push_neg
            exact ⟨hn1, hne1⟩)
          exact ⟨this.1, List.mem_cons_of_mem _ (List.mem_append_right _ this.2)⟩
      · intro x hx
        have hxr : keyId x ∉ rest.map (fun c => c.id) :=
          fun hm => hx (List.mem_cons_of_mem _ hm)
        rw [ih3 x hxr, hst]
        exact write_store_untouched now c st.db x
          (fun he => hx (by rw [he]; exact List.mem_cons_self _ _))
      · intro n s hmem
        rcases List.mem_cons.1 hmem with hmem | hmem
        · exact SigEvent.noConfusion hmem
        · rcases List.mem_append.1 hmem with hmem | hmem
          · rw [hev] at hmem
            rcases List.mem_append.1 hmem with hmem | hmem
            · by_cases hmn : mn = true <;> simp [hmn] at hmem
            · simp at hmem
          · exact ih4 n s hmem
      · intro c1 hc1
        rcases ih5 c1 hc1 with hm | hm
        · simp only [List.mem_append, List.mem_singleton] at hm
          rcases hm with hm | hm
          · exact Or.inl hm
          · exact Or.inr (by rw [hm]; exact List.mem_cons_self _ _)
        · exact Or.inr (List.mem_cons_of_mem _ hm)
      · intro n c1 hmem
        rcases List.mem_cons.1 hmem with hmem | hmem
        · injection hmem with h1 h2
          exact ⟨h1, by rw [h2]; exact List.mem_cons_self _ _⟩
        · rcases List.mem_append.1 hmem with hmem | hmem
          · rw [hev] at hmem
            rcases List.mem_append.1 hmem with hmem | hmem
            · by_cases hmn : mn = true <;> simp [hmn] at hmem
            · simp at hmem
          · obtain ⟨hn, hc1⟩ := ih6 n c1 hmem
            exact ⟨hn, List.mem_cons_of_mem _ hc1⟩

end OwleeModel

namespace OwleeModel

/-- All candidates of the origins other than `badO` in a per-origin list. -/
def goodCandsOf (badO : Int) (l : List (Int × List CRecoveredSig)) : List CRecoveredSig :=
  ((l.filter (fun p => decide (p.1 ≠ badO))).map Prod.snd).flatten

theorem goodCandsOf_cons_ne (badO : Int) (node : Int) (v : List CRecoveredSig)
    (rest : List (Int × List CRecoveredSig)) (h : node ≠ badO) :
    goodCandsOf badO ((node, v) :: rest) = v ++ goodCandsOf badO rest := by
  simp [goodCandsOf, List.filter_cons, h]

theorem goodCandsOf_cons_eq (badO : Int) (v : List CRecoveredSig)
    (rest : List (Int × List CRecoveredSig)) :
    goodCandsOf badO ((badO, v) :: rest) = goodCandsOf badO rest := by
  simp [goodCandsOf, List.filter_cons]

theorem processRound_spec (mn : Bool) (chain : ChainModel) (now : Nat)
    (sigValid : Nat → Bool) (blsValid : CRecoveredSig → Bool)
    (badO : Int) (vBad : List CRecoveredSig)
    (hbad : badNode sigValid blsValid vBad = true)
    (l : List (Int × List CRecoveredSig)) :
    ∀ (st : SigningState) (ps : List CRecoveredSig),
      CachesOk st.db →
      (∀ p ∈ l, p.1 = badO → p.2 = vBad) →
      (∀ p ∈ l, p.1 ≠ badO → badNode sigValid blsValid p.2 = false) →
      (∀ p ∈ l, p.1 ≠ badO → ∀ c ∈ p.2, ChainOk chain c) →
      ((goodCandsOf badO l).map (fun c => c.id)).Nodup →
      (∀ c ∈ goodCandsOf badO l, c ∉ ps ∧ FreshIn st.db c) →
      CachesOk (processRound mn chain now sigValid blsValid l st ps).1.db ∧
      (∀ p ∈ l, p.1 ≠ badO → ∀ c ∈ p.2,
        alookup (processRound mn chain now sigValid blsValid l st ps).1.db.store (.rsH c)
          = some (.vnum c.id) ∧
        SigEvent.acceptCall p.1 c
          ∈ (processRound mn chain now sigValid blsValid l st ps).2.1) ∧
      (∀ n s, SigEvent.misbehaving n s
          ∈ (processRound mn chain now sigValid blsValid l st ps).2.1 →
        n = badO ∧ s = 100) ∧
      ((badO, vBad) ∈ l → SigEvent.misbehaving badO 100
          ∈ (processRound mn chain now sigValid blsValid l st ps).2.1) ∧
      (∀ x, keyId x ∉ (goodCandsOf badO l).map (fun c => c.id) →
        alookup (processRound mn chain now sigValid blsValid l st ps).1.db.store x
          = alookup st.db.store x) ∧
      (∀ n c, SigEvent.acceptCall n c
          ∈ (processRound mn chain now sigValid blsValid l st ps).2.1 →
        c ∈ goodCandsOf badO l) ∧
      (∀ c, c ∈ (processRound mn chain now sigValid blsValid l st ps).2.2 →
        c ∈ ps ∨ c ∈ goodCandsOf badO l) := by
  induction l with
  | nil =>
    intro st ps hco _ _ _ _ _
    refine ⟨hco, ?_, ?_, ?_, ?_, ?_, ?_⟩
    · intro p hp
      cases hp
    · intro n s hmem
      cases hmem
    · intro hmem
      cases hmem
    · intro x _
      rfl
    · intro n c hmem
      cases hmem
    · intro c hc
      exact Or.inl hc
  | cons q rest ih =>
    obtain ⟨node, v⟩ := q
    intro st ps hco hbadid hgoodn hchain hnd hfresh
    by_cases hb : badNode sigValid blsValid v = true
    · have hnodeeq : node = badO := by
        by_contra hne
        have := hgoodn (node, v) (List.mem_cons_self _ _) hne
        rw [this] at hb
        cases hb
      subst hnodeeq
      have hgc : goodCandsOf node ((node, v) :: rest) = goodCandsOf node rest :=
        goodCandsOf_cons_eq node v rest
      rw [hgc] at hnd hfresh
      have hloop : processRound mn chain now sigValid blsValid ((node, v) :: rest) st ps
          = ((processRound mn chain now sigValid blsValid rest st ps).1,
             SigEvent.misbehaving node 100
               :: (processRound mn chain now sigValid blsValid rest st ps).2.1,
             (processRound mn chain now sigValid blsValid rest st ps).2.2) := by
        simp [processRound, hb]
      rw [hloop]
      obtain ⟨ih1, ih2, ih3, ih4, ih5, ih6, ih7⟩ := ih st ps hco
        (fun p hp => hbadid p (List.mem_cons_of_mem _ hp))
        (fun p hp => hgoodn p (List.mem_cons_of_mem _ hp))
        (fun p hp => hchain p (List.mem_cons_of_mem _ hp)) hnd hfresh
      refine ⟨ih1, ?_, ?_, ?_, ?_, ?_, ?_⟩
      · intro p hp hpne c hc
        rcases List.mem_cons.1 hp with heq | hmem
        · rw [heq] at hpne
          exact absurd rfl hpne
        · obtain ⟨h1, h2⟩ := ih2 p hmem hpne c hc
          exact ⟨h1, List.mem_cons_of_mem _ h2⟩
      · intro n s hmem
        rcases List.mem_cons.1 hmem with heq | hmem
        · injection heq with h1 h2
          exact ⟨h1, h2⟩
        · exact ih3 n s hmem
      · intro _
        exact List.mem_cons_self _ _
      · intro x hx
        rw [hgc] at hx
        exact ih5 x hx
      · intro n c hmem
        rcases List.mem_cons.1 hmem with heq | hmem
        · exact absurd heq (fun h => SigEvent.noConfusion h)
        · rw [hgc]
          exact ih6 n c hmem
      · intro c hc
        rw [hgc]
        exact ih7 c hc
    · have hnodene : node ≠ badO := by
        intro he
        have := hbadid (node, v) (List.mem_cons_self _ _) he
        simp only at this
        rw [this] at hb
        exact hb hbad
      have hgc : goodCandsOf badO ((node, v) :: rest) = v ++ goodCandsOf badO rest :=
        goodCandsOf_cons_ne badO node v rest hnodene
      rw [hgc] at hnd hfresh
      rw [List.map_append, List.nodup_append] at hnd
      obtain ⟨hndv, hndr, hdisj⟩ := hnd
      obtain ⟨n1, n2, n3, n4, n5, n6⟩ := processNodeSigs_spec mn chain now node v st ps hco
        (fun c hc => hchain (node, v) (List.mem_cons_self _ _) hnodene c hc)
        (fun c hc _ => (hfresh c (List.mem_append_left _ hc)).2) hndv
      have hfresh2 : ∀ c ∈ goodCandsOf badO rest,
          c ∉ (processNodeSigs mn chain now node v st ps).2.2 ∧
          FreshIn (processNodeSigs mn chain now node v st ps).1.db c := by
        intro c hc
        have hidnotv : c.id ∉ v.map (fun c => c.id) := by
          intro hm
          exact (List.disjoint_right.1 hdisj (List.mem_map_of_mem _ hc)) hm
        constructor
        · intro hmem
          rcases n5 c hmem with hm | hm
          · exact (hfresh c (List.mem_append_right _ hc)).1 hm
          · exact hidnotv (List.mem_map_of_mem _ hm)
        · have hf := (hfresh c (List.mem_append_right _ hc)).2
          constructor
          · rw [n3 (.rsH c) (by simpa [keyId] using hidnotv)]
            exact hf.1
          · rw [n3 (.rsR c.id) (by simpa [keyId] using hidnotv)]
            exact hf.2
      obtain ⟨ih1, ih2, ih3, ih4, ih5, ih6, ih7⟩ := ih
        (processNodeSigs mn chain now node v st ps).1
        (processNodeSigs mn chain now node v st ps).2.2 n1
        (fun p hp => hbadid p (List.mem_cons_of_mem _ hp))
        (fun p hp => hgoodn p (List.mem_cons_of_mem _ hp))
        (fun p hp => hchain p (List.mem_cons_of_mem _ hp)) hndr hfresh2
      have hloop : processRound mn chain now sigValid blsValid ((node, v) :: rest) st ps
          = ((processRound mn chain now sigValid blsValid rest
                (processNodeSigs mn chain now node v st ps).1
                (processNodeSigs mn chain now node v st ps).2.2).1,
             (processNodeSigs mn chain now node v st ps).2.1
               ++ (processRound mn chain now sigValid blsValid rest
                (processNodeSigs mn chain now node v st ps).1
                (processNodeSigs mn chain now node v st ps).2.2).2.1,
             (processRound mn chain now sigValid blsValid rest
                (processNodeSigs mn chain now node v st ps).1
                (processNodeSigs mn chain now node v st ps).2.2).2.2) := by
        simp [processRound, hb]
      rw [hloop]
      refine ⟨ih1, ?_, ?_, ?_, ?_, ?_, ?_⟩
      · intro p hp hpne c hc
        rcases List.mem_cons.1 hp with heq | hmem
        · have hcv : c ∈ v := by
            rw [heq] at hc
            exact hc
          have hidnotr : keyId (RsKey.rsH c) ∉ (goodCandsOf badO rest).map (fun c => c.id) := by
            intro hm
            exact (List.disjoint_left.1 hdisj (List.mem_map_of_mem _ hcv))
              (by simpa [keyId] using hm)
          obtain ⟨hst1, hev1⟩ := n2 c hcv (hfresh c (List.mem_append_left _ hcv)).1
          refine ⟨?_, ?_⟩
          · rw [ih5 (.rsH c) hidnotr]
            exact hst1
          · apply List.mem_append_left
            rw [heq]
            exact hev1
        · obtain ⟨h1, h2⟩ := ih2 p hmem hpne c hc
          exact ⟨h1, List.mem_append_right _ h2⟩
      · intro n s hmem
        rcases List.mem_append.1 hmem with hmem | hmem
        · exact absurd hmem (n4 n s)
        · exact ih3 n s hmem
      · intro hmem
        rcases List.mem_cons.1 hmem with heq | hmem
        · injection heq with h1 _
          exact absurd h1.symm hnodene
        · exact List.mem_append_right _ (ih4 hmem)
      · intro x hx
        rw [hgc] at hx
        rw [List.map_append] at hx
        rw [ih5 x (fun hm => hx (List.mem_append_right _ hm))]
        exact n3 x (fun hm => hx (List.mem_append_left _ hm))
      · intro n c hmem
        rw [hgc]
        rcases List.mem_append.1 hmem with hmem | hmem
        · exact List.mem_append_left _ (n6 n c hmem).2
        · exact List.mem_append_right _ (ih6 n c hmem)
      · intro c hc
        rw [hgc]
        rcases ih7 c hc with hm | hm
        · rcases n5 c hm with hm2 | hm2
          · exact Or.inl hm2
          · exact Or.inr (List.mem_append_left _ hm2)
        · exact Or.inr (List.mem_append_right _ hm)

end OwleeModel

namespace OwleeModel

/-- Claim C5: in a batch-verification round over pending recovered
signatures where exactly one origin contributes an invalid (structurally
invalid or BLS-failing) signature, only that origin's candidates are
discarded and only that origin is flagged as misbehaving (score 100);
every valid, not-already-known candidate of each other origin is still
individually handed to `ProcessRecoveredSig` and accepted (persisted under
its content-hash key), while none of the bad origin's candidates is
processed or persisted. -/
theorem processRound_one_bad_origin
    (mn : Bool) (chain : ChainModel) (now : Nat)
    (sigValid : Nat → Bool) (blsValid : CRecoveredSig → Bool)
    (byNode : List (Int × List CRecoveredSig)) (st : SigningState)
    (badO : Int) (vBad : List CRecoveredSig)
    (hmem : (badO, vBad) ∈ byNode)
    (hnodes : (byNode.map Prod.fst).Nodup)
    (hbad : badNode sigValid blsValid vBad = true)
    (hgood : ∀ p ∈ byNode, p.1 ≠ badO → badNode sigValid blsValid p.2 = false)
    (hchain : ∀ p ∈ byNode, p.1 ≠ badO → ∀ c ∈ p.2, ChainOk chain c)
    (hids : ((goodCandsOf badO byNode).map (fun c => c.id)).Nodup)
    (hco : CachesOk st.db)
    (hfresh : ∀ c ∈ goodCandsOf badO byNode, FreshIn st.db c)
    (hbadfresh : ∀ c ∈ vBad, alookup st.db.store (.rsH c) = none ∧
      c.id ∉ (goodCandsOf badO byNode).map (fun c => c.id)) :
    SigEvent.misbehaving badO 100
      ∈ (processRound mn chain now sigValid blsValid byNode st []).2.1 ∧
    (∀ n s, SigEvent.misbehaving n s
        ∈ (processRound mn chain now sigValid blsValid byNode st []).2.1 →
      n = badO ∧ s = 100) ∧
    (∀ p ∈ byNode, p.1 ≠ badO → ∀ c ∈ p.2,
      alookup (processRound mn chain now sigValid blsValid byNode st []).1.db.store (.rsH c)
        = some (.vnum c.id) ∧
      SigEvent.acceptCall p.1 c
        ∈ (processRound mn chain now sigValid blsValid byNode st []).2.1) ∧
    (∀ c ∈ vBad,
      alookup (processRound mn chain now sigValid blsValid byNode st []).1.db.store (.rsH c)
        = none ∧
      ∀ n, SigEvent.acceptCall n c
        ∉ (processRound mn chain now sigValid blsValid byNode st []).2.1) := by
  have hbadid : ∀ p ∈ byNode, p.1 = badO → p.2 = vBad := by
    intro p hp he
    have := List.inj_on_of_nodup_map hnodes hp hmem (by rw [he])
    rw [this]
  obtain ⟨r1, r2, r3, r4, r5, r6, r7⟩ := processRound_spec mn chain now sigValid blsValid
    badO vBad hbad byNode st [] hco hbadid hgood hchain hids
    (fun c hc => ⟨List.not_mem_nil _, hfresh c hc⟩)
  refine ⟨r4 hmem, r3, r2, ?_⟩
  intro c hc
  obtain ⟨hn, hni⟩ := hbadfresh c hc
  constructor
  · rw [r5 (.rsH c) (by simpa [keyId] using hni)]
    exact hn
  · intro n hcall
    exact hni (List.mem_map_of_mem _ (r6 n c hcall))

/-- Claim C5, witness: origin 1 supplies a structurally invalid signature
(sig value 0), origin 2 a valid one; the round flags origin 1 only, accepts
and persists origin 2's candidate, and drops origin 1's candidate. -/
theorem processRound_one_bad_origin_witness :
    SigEvent.misbehaving 1 100 ∈ (processRound false witChain 70 (fun s => s != 0)
      (fun _ => true) [(1, [⟨1, 50, 3, 0⟩]), (2, [⟨1, 60, 3, 4⟩])] ⟨emptyRsDb, []⟩ []).2.1 ∧
    SigEvent.acceptCall 2 ⟨1, 60, 3, 4⟩ ∈ (processRound false witChain 70 (fun s => s != 0)
      (fun _ => true) [(1, [⟨1, 50, 3, 0⟩]), (2, [⟨1, 60, 3, 4⟩])] ⟨emptyRsDb, []⟩ []).2.1 ∧
    alookup (processRound false witChain 70 (fun s => s != 0) (fun _ => true)
        [(1, [⟨1, 50, 3, 0⟩]), (2, [⟨1, 60, 3, 4⟩])] ⟨emptyRsDb, []⟩ []).1.db.store
      (.rsH ⟨1, 60, 3, 4⟩) = some (.vnum 60) ∧
    alookup (processRound false witChain 70 (fun s => s != 0) (fun _ => true)
        [(1, [⟨1, 50, 3, 0⟩]), (2, [⟨1, 60, 3, 4⟩])] ⟨emptyRsDb, []⟩ []).1.db.store
      (.rsH ⟨1, 50, 3, 0⟩) = none := by
  have h := processRound_one_bad_origin false witChain 70 (fun s => s != 0) (fun _ => true)
    [(1, [⟨1, 50, 3, 0⟩]), (2, [⟨1, 60, 3, 4⟩])] ⟨emptyRsDb, []⟩ 1 [⟨1, 50, 3, 0⟩]
    (by decide) (by decide) (by decide)
    (by
      intro p hp hne
      rcases List.mem_cons.1 hp with heq | hp2
      · rw [heq] at hne
        exact absurd rfl hne
      · rcases List.mem_cons.1 hp2 with heq | hp3
        · rw [heq]
          decide
        · cases hp3)
    (by
      intro p hp hne c hc
      exact ⟨0, rfl, by decide, rfl⟩)
    (by decide)
    (by
      refine ⟨?_, ?_, ?_⟩ <;> intro a b hb <;> simp [emptyRsDb, alookup] at hb)
    (by
      intro c hc
      exact ⟨rfl, rfl⟩)
    (by
      intro c hc
      rcases List.mem_cons.1 hc with heq | hc2
      · rw [heq]
        exact ⟨rfl, by decide⟩
      · cases hc2)
  obtain ⟨w1, w2, w3, w4⟩ := h
  have hg := w3 (2, [⟨1, 60, 3, 4⟩]) (by decide) (by decide) ⟨1, 60, 3, 4⟩
    (List.mem_cons_self _ _)
  have hb := w4 ⟨1, 50, 3, 0⟩ (List.mem_cons_self _ _)
  exact ⟨w1, hg.2, hg.1, hb.1⟩

end OwleeModel
